import Mathlib

/-!
Verification development for the csv2api-router pipeline.

The Python sources under `src/pipeline` are shallowly embedded here:
dictionaries become ordered association lists, Python floats become exact
rationals (`ℚ`), fallible operations return `Option`, and the external
generative-text service is modelled as an explicit oracle argument.
Each embedded definition carries a doc comment naming the Python function
it translates.
-/

namespace Csv2Api

/-- Value stored in a cleaned CSV row dictionary.  The values arising in
`csv_cleaner.clean_and_classify_csv` are strings, floats, or `None`;
Python floats are modelled as exact rationals. -/
inductive PyVal where
  | vstr (s : String)
  | vnum (q : ℚ)
  | vnone
  deriving DecidableEq, Repr

/-- Python truthiness `bool(x)`: the empty string, `0.0` and `None` are
falsy, everything else arising in the pipeline is truthy. -/
def PyVal.truthy : PyVal → Bool
  | .vstr s => s != ""
  | .vnum q => decide (q ≠ 0)
  | .vnone => false

/-- Ordered association-list model of a Python `dict` (CPython preserves
insertion order). -/
abbrev Dict := List (String × PyVal)

/-- `d.get(k)` / `d[k]`: the binding for `k`, if any. -/
def dGet (d : Dict) (k : String) : Option PyVal :=
  (d.find? (fun kv => kv.1 == k)).map (·.2)

/-- `d[k] = v`: overwrite an existing binding in place (CPython dicts keep
the original insertion position on overwrite), else append. -/
def dSet (d : Dict) (k : String) (v : PyVal) : Dict :=
  match d with
  | [] => [(k, v)]
  | kv :: rest => if kv.1 == k then (kv.1, v) :: rest else kv :: dSet rest k v

/-- `k in d`. -/
def dHasKey (d : Dict) (k : String) : Bool :=
  d.any (fun kv => kv.1 == k)

/-- Truthiness of `d.get(k)`: missing keys behave like `None`. -/
def dTruthy (d : Dict) (k : String) : Bool :=
  ((dGet d k).getD .vnone).truthy

/-- Leading- and trailing-whitespace removal on character lists. -/
def trimChars (l : List Char) : List Char :=
  ((l.dropWhile Char.isWhitespace).reverse.dropWhile Char.isWhitespace).reverse

/-- Python `str.strip()` (default whitespace strip); the whitespace sets of
Python and `Char.isWhitespace` agree on all ASCII input handled by the
pipeline. -/
def pyStrip (s : String) : String := String.mk (trimChars s.toList)

/-- Substring test, Python's `sub in hay`. -/
def strHasSub (hay sub : String) : Bool :=
  hay.toList.tails.any (fun t => sub.toList.isPrefixOf t)

/-- Recursion core of `removeSub`; the fuel argument only forces structural
recursion and is always instantiated with the input length, which bounds
the number of steps. -/
def removeSubFuel (pat : List Char) : ℕ → List Char → List Char
  | 0, s => s
  | _ + 1, [] => []
  | fuel + 1, c :: rest =>
    if pat.isPrefixOf (c :: rest) && !pat.isEmpty then
      removeSubFuel pat fuel ((c :: rest).drop pat.length)
    else
      c :: removeSubFuel pat fuel rest

/-- Python `s.replace(pat, '')` (with a nonempty `pat`): delete every
non-overlapping occurrence of `pat`, scanning left to right. -/
def removeSub (pat s : List Char) : List Char :=
  removeSubFuel pat s.length s

/-- Numeric value of a big-endian list of decimal digit characters. -/
def natOfDigitChars (l : List Char) : ℕ :=
  l.foldl (fun a c => a * 10 + (c.toNat - 48)) 0

/-- Python `float(s)` restricted to the strings the cleaner can feed it:
strings made of decimal digits and periods.  Accepts at most one period
and at least one digit; the value is exact (rationals model floats). -/
def floatOfDigitsDot (s : String) : Option ℚ :=
  let cs := s.toList
  if cs.all (fun c => c.isDigit || c == '.') then
    let intPart := cs.takeWhile (fun c => c != '.')
    let rest := cs.dropWhile (fun c => c != '.')
    match rest with
    | [] => if cs.isEmpty then none else some (mkRat (natOfDigitChars cs) 1)
    | _ :: frac =>
      if frac.any (fun c => c == '.') then none
      else if intPart.isEmpty && frac.isEmpty then none
      else some (mkRat (natOfDigitChars (intPart ++ frac)) (10 ^ frac.length))
  else none

/-- Amount coercion, `csv_cleaner.clean_and_classify_csv` lines 145–153:
strip, delete the `USD`/`ETH`/`$` markers, strip again, keep only digits
and periods, then `float(val) if val else None`; any parse failure is
caught and yields `None`. -/
def coerceAmount (v : String) : Option ℚ :=
  let v1 := pyStrip v
  let v2 := String.mk (removeSub "$".toList
    (removeSub "ETH".toList (removeSub "USD".toList v1.toList)))
  let v3 := pyStrip v2
  let v4 := v3.toList.filter (fun c => c.isDigit || c == '.')
  if v4.isEmpty then none else floatOfDigitsDot (String.mk v4)

example : coerceAmount "$1,234.5 USD" = some (mkRat 12345 10) := by decide
example : coerceAmount " 0.1 ETH " = some (mkRat 1 10) := by decide
example : coerceAmount "n/a" = none := by decide
example : coerceAmount "1.2.3" = none := by decide

/-- `pre.isPrefixOf s`, Python `s.startswith(pre)`. -/
def startsWithStr (s pre : String) : Bool :=
  pre.toList.isPrefixOf s.toList

/-- Python `s.lower()` (ASCII input). -/
def pyToLower (s : String) : String := String.mk (s.toList.map Char.toLower)

/-- The hash test used throughout `csv_cleaner.py`:
`s.startswith('0x') and len(s) == 66`.  Note the code never checks that the
remaining 64 characters are hexadecimal digits. -/
def isHashShaped (s : String) : Bool :=
  startsWithStr s "0x" && s.toList.length == 66

/-- The spec's canonical hash format (§3 of the spec): a 66-character
`0x`-prefixed hexadecimal string.  This definition follows the spec's
words; it is compared with the code-side `isHashShaped`. -/
def isCanonicalTxHash (s : String) : Bool :=
  startsWithStr s "0x" && s.toList.length == 66 &&
    (s.toList.drop 2).all (fun c =>
      c.isDigit || ('a' ≤ c && c ≤ 'f') || ('A' ≤ c && c ≤ 'F'))

/-- Index of the first occurrence of `pat` in `l`, if any. -/
def findSub (pat l : List Char) : Option ℕ :=
  (List.range (l.length + 1)).find? (fun i => pat.isPrefixOf (l.drop i))

/-- Split at every occurrence of `sep`, keeping empty segments
(Python `s.split(sep)` with an explicit separator). -/
def splitOnChar (sep : Char) (l : List Char) : List (List Char) :=
  l.foldr
    (fun c acc =>
      if c == sep then [] :: acc
      else match acc with
        | h :: t => (c :: h) :: t
        | [] => [[c]])
    [[]]

/-- Python `s.split()` with no argument: split on whitespace runs and drop
empty segments. -/
def pySplitWs (s : String) : List String :=
  ((s.toList.foldr
    (fun c acc =>
      if c.isWhitespace then [] :: acc
      else match acc with
        | h :: t => (c :: h) :: t
        | [] => [[c]])
    [[]]).filter (fun seg => !seg.isEmpty)).map String.mk

/-- Python `s.strip('/')`: drop leading and trailing `/` characters. -/
def stripSlashes (s : String) : String :=
  String.mk (((s.toList.dropWhile (fun c => c == '/')).reverse.dropWhile
    (fun c => c == '/')).reverse)

/-- The components of `urllib.parse.urlparse` the pipeline reads. -/
structure UrlParts where
  netloc : String
  path : String
  query : String
  deriving DecidableEq, Repr

/-- Model of `urllib.parse.urlparse` restricted to what the pipeline feeds
it: the fragment is split off at the first `#`; a scheme is recognised when
a syntactically valid scheme name is followed by `://`, in which case the
netloc runs to the next `/` or `?`; otherwise the whole remainder is path
plus query.  Percent-decoding never changes the `0x…` tokens and explorer
domains the pipeline looks for and is modelled as the identity. -/
def pyUrlparse (url : String) : UrlParts :=
  let cs := (url.toList.takeWhile (fun c => c != '#'))
  let noScheme : UrlParts :=
    let body := if "//".toList.isPrefixOf cs then cs.drop 2 else []
    let cs' := if "//".toList.isPrefixOf cs then cs.drop 2 else cs
    let netloc := if "//".toList.isPrefixOf cs then
      body.takeWhile (fun c => c != '/' && c != '?') else []
    let rest := cs'.drop netloc.length
    let path := rest.takeWhile (fun c => c != '?')
    let query := (rest.drop path.length).drop 1
    ⟨String.mk netloc, String.mk path, String.mk query⟩
  match findSub "://".toList cs with
  | some i =>
    let sch := cs.take i
    if !sch.isEmpty && sch.all (fun c => c.isAlphanum || c == '+' || c == '-' || c == '.')
        && (sch.headD 'a').isAlpha then
      let rest := cs.drop (i + 3)
      let netloc := rest.takeWhile (fun c => c != '/' && c != '?')
      let rest2 := rest.drop netloc.length
      let path := rest2.takeWhile (fun c => c != '?')
      let query := (rest2.drop path.length).drop 1
      ⟨String.mk netloc, String.mk path, String.mk query⟩
    else noScheme
  | none => noScheme

/-- Model of `urllib.parse.parse_qs`: split the query on `&`, keep the
fields containing `=` whose value part is non-blank, group values under
their key in first-occurrence order (CPython dict order). -/
def parseQs (query : String) : List (String × List String) :=
  let fields := (splitOnChar '&' query.toList).filterMap (fun f =>
    match findSub "=".toList f with
    | some i =>
      let v := f.drop (i + 1)
      if v.isEmpty then none else some (String.mk (f.take i), String.mk v)
    | none => none)
  fields.foldl
    (fun acc kv =>
      if acc.any (fun g => g.1 == kv.1) then
        acc.map (fun g => if g.1 == kv.1 then (g.1, g.2 ++ [kv.2]) else g)
      else acc ++ [(kv.1, [kv.2])])
    []

/-- Map of explorer domains to chain names, `csv_cleaner.CHAIN_MAP`,
in its insertion (and hence iteration) order. -/
def CHAIN_MAP : List (String × String) :=
  [("etherscan.io", "ETHEREUM"),
   ("polygonscan.com", "POLYGON"),
   ("optimistic.etherscan.io", "OPTIMISM"),
   ("arbiscan.io", "ARBITRUM"),
   ("basescan.org", "BASE")]

/-- `csv_cleaner.detect_chain_from_url`: lowercase the parsed netloc and
return the chain of the first `CHAIN_MAP` entry whose domain key occurs in
it as a substring, traversing the dict in insertion order; default
`"ETHEREUM"` for a falsy URL or no match.  The `except` branch is
unreachable in the model (`urlparse` never raises on `str` input). -/
def detect_chain_from_url (url : String) : String :=
  if url == "" then "ETHEREUM"
  else
    let domain := pyToLower (pyUrlparse url).netloc
    match CHAIN_MAP.find? (fun kv => strHasSub domain kv.1) with
    | some kv => kv.2
    | none => "ETHEREUM"

/-- One candidate search loop of `extract_tx_hash_from_url`: the first
string in `l` that is hash-shaped after stripping, stripped. -/
def firstHashIn (l : List String) : Option String :=
  (l.find? (fun p => isHashShaped (pyStrip p))).map pyStrip

/-- `csv_cleaner.extract_tx_hash_from_url`: direct-hash check, then path
segments, then query-parameter values, then whitespace tokens; every
candidate is stripped and accepted only if hash-shaped. -/
def extract_tx_hash_from_url (url : String) : Option String :=
  if url == "" then none
  else
    let url1 := pyStrip url
    if isHashShaped url1 then some url1
    else
      let url2 := if startsWithStr url1 "http://" || startsWithStr url1 "https://"
        then url1 else "https://" ++ url1
      let parsed := pyUrlparse url2
      (firstHashIn ((splitOnChar '/' (stripSlashes parsed.path).toList).map String.mk)).orElse
        (fun _ => (firstHashIn ((parseQs parsed.query).flatMap (fun g => g.2))).orElse
          (fun _ => firstHashIn (pySplitWs url2)))

/-- `csv_cleaner.FunctionType`, in declaration order. -/
inductive FunctionType where
  | TAG_AS_EXPENSE
  | GET_TRANSACTION
  | GET_RECEIPT
  deriving DecidableEq, Repr

/-- `FunctionType.value`. -/
def FunctionType.value : FunctionType → String
  | .TAG_AS_EXPENSE => "tag_as_expense"
  | .GET_TRANSACTION => "get_transaction"
  | .GET_RECEIPT => "get_receipt"

/-- `csv_cleaner.determine_function_type`: presence (truthiness) checks on
`tx_hash`, `purpose`/`expense_category` and the amount columns. -/
def determine_function_type (row : Dict) : FunctionType :=
  let has_tx_hash := dTruthy row "tx_hash"
  let has_purpose := dTruthy row "purpose" || dTruthy row "expense_category"
  let has_amount := dTruthy row "amount in ETH" || dTruthy row "amount in USD"
  if has_tx_hash && (has_purpose || has_amount) then .TAG_AS_EXPENSE
  else if has_tx_hash then .GET_TRANSACTION
  else .GET_TRANSACTION

/-- A raw CSV row as produced by `csv.DictReader`: header names paired with
field values, in column order. -/
abbrev RawRow := List (String × String)

/-- Value cleaning, `clean_and_classify_csv` lines 141–158: blank fields
become `None`; fields of `amount…` columns are coerced to float (or
`None`); other fields are stripped strings. -/
def cleanRowValues (row : RawRow) : Dict :=
  row.map (fun kv =>
    if pyStrip kv.2 == "" then (kv.1, PyVal.vnone)
    else if startsWithStr (pyToLower kv.1) "amount" then
      (kv.1, match coerceAmount kv.2 with
        | some q => PyVal.vnum q
        | none => PyVal.vnone)
    else (kv.1, PyVal.vstr (pyStrip kv.2)))

/-- The scan of `clean_and_classify_csv` lines 181–186: a cleaned value
passes if it is truthy, a string, `0x`-prefixed and of length 66. -/
def isStrHash : PyVal → Bool
  | .vstr s => (s != "") && isHashShaped s
  | _ => false

/-- The guard `'tx_link' in cleaned and cleaned['tx_link']` of line 166,
returning the (always string-valued) truthy `tx_link` entry. -/
def linkValue (c : Dict) : Option String :=
  if dHasKey c "tx_link" && dTruthy c "tx_link" then
    match dGet c "tx_link" with
    | some (.vstr s) => some s
    | _ => none
  else none

/-- Lines 162–175 of `clean_and_classify_csv`: extract `tx_hash` and chain
from a truthy `tx_link` value.  Returns the updated dict, the `chain`
local, and the `tx_hash` local. -/
def extractFromLink (cleaned0 : Dict) : Dict × String × Option String :=
  match linkValue cleaned0 with
  | some s =>
    match extract_tx_hash_from_url s with
    | some h =>
      let d := dSet cleaned0 "tx_hash" (.vstr h)
      let ch := detect_chain_from_url s
      (dSet d "chain" (.vstr ch), ch, some h)
    | none => (cleaned0, "ETHEREUM", none)
  | none => (cleaned0, "ETHEREUM", none)

/-- Lines 177–186 of `clean_and_classify_csv`: when no hash came from
`tx_link`, scan the cleaned values for a hash-shaped string. -/
def scanColumns (d : Dict) (tx : Option String) : Dict × Option String :=
  match tx with
  | some h => (d, some h)
  | none =>
    match d.find? (fun kv => isStrHash kv.2) with
    | some kv => (dSet d "tx_hash" kv.2, some (match kv.2 with
        | .vstr s => s
        | _ => ""))
    | none => (d, none)

/-- Lines 194–203 of `clean_and_classify_csv`: set `chain`, default
`purpose` to `"General"`, and copy `purpose` to `expense_category`. -/
def finalizeRow (d : Dict) (chain : String) : Dict :=
  let d2 := dSet d "chain" (.vstr chain)
  let d3 := if !dHasKey d2 "purpose" || !dTruthy d2 "purpose" then
      dSet d2 "purpose" (.vstr "General")
    else d2
  dSet d3 "expense_category" ((dGet d3 "purpose").getD (.vstr "General"))

/-- Per-row body of `clean_and_classify_csv` (lines 136–212): clean the
values, extract `tx_hash`/`chain` from `tx_link`, else scan the other
columns for a hash-shaped string, skip the row when none is found, then
set `chain`, default `purpose`, and map `purpose` to `expense_category`.
The row-level `except` branch is unreachable in the model: every operation
in the body is total. -/
def processRow (row : RawRow) : Option Dict :=
  let s1 := extractFromLink (cleanRowValues row)
  let s2 := scanColumns s1.1 s1.2.2
  match s2.2 with
  | none => none
  | some _ => some (finalizeRow s2.1 s1.2.1)

/-- Batch-level majority vote of `clean_and_classify_csv` (lines 226–233):
`max(function_counts.items(), key=…)` over the dict built in enum
declaration order; Python's `max` keeps the first maximum on ties. -/
def majorityFunction (cleanedRows : List Dict) : FunctionType :=
  let tally := [FunctionType.TAG_AS_EXPENSE, .GET_TRANSACTION, .GET_RECEIPT].map
    (fun ft => (ft, (cleanedRows.filter (fun r => determine_function_type r == ft)).length))
  (tally.foldl (fun best x => if x.2 > best.2 then x else best)
    (FunctionType.TAG_AS_EXPENSE, (cleanedRows.filter
      (fun r => determine_function_type r == .TAG_AS_EXPENSE)).length)).1

/-- `csv_cleaner.clean_and_classify_csv`, with the file already read into a
list of `DictReader` rows: returns `(function_name, cleaned_rows)`; rows
whose hash cannot be derived are skipped (with a logged reason). -/
def clean_and_classify_csv (rows : List RawRow) : String × List Dict :=
  let cleanedRows := rows.filterMap processRow
  let functionName :=
    if cleanedRows.isEmpty then FunctionType.GET_TRANSACTION.value
    else (majorityFunction cleanedRows).value
  (functionName, cleanedRows)

/-! ### Dictionary lemmas -/

theorem dGet_dSet_self (d : Dict) (k : String) (v : PyVal) :
    dGet (dSet d k v) k = some v := by
  induction d with
  | nil => simp [dGet, dSet, List.find?]
  | cons kv rest ih =>
    by_cases h : kv.1 = k
    · simp [dGet, dSet, List.find?, h]
    · simp only [dSet, beq_iff_eq, if_neg h]
      have h1 : (kv.1 == k) = false := beq_eq_false_iff_ne.mpr h
      simpa [dGet, List.find?, h1] using ih

theorem dGet_dSet_ne (d : Dict) (k k' : String) (v : PyVal) (h : k' ≠ k) :
    dGet (dSet d k v) k' = dGet d k' := by
  induction d with
  | nil =>
    have h1 : (k == k') = false := beq_eq_false_iff_ne.mpr (fun hh => h hh.symm)
    simp [dGet, dSet, List.find?, h1]
  | cons kv rest ih =>
    by_cases hk : kv.1 = k
    · subst hk
      have h1 : (kv.1 == k') = false := beq_eq_false_iff_ne.mpr (fun hh => h hh.symm)
      simp [dGet, dSet, List.find?, h1]
    · simp only [dSet, beq_iff_eq, if_neg hk]
      by_cases hk' : kv.1 = k'
      · simp [dGet, List.find?, hk']
      · have h1 : (kv.1 == k') = false := beq_eq_false_iff_ne.mpr hk'
        simpa [dGet, List.find?, h1] using ih

theorem dTruthy_dSet_ne (d : Dict) (k k' : String) (v : PyVal) (h : k' ≠ k) :
    dTruthy (dSet d k v) k' = dTruthy d k' := by
  simp [dTruthy, dGet_dSet_ne d k k' v h]

/-- A hash-shaped string is nonempty, hence truthy. -/
theorem isHashShaped_ne_empty {s : String} (h : isHashShaped s = true) : s ≠ "" := by
  intro he
  subst he
  simp [isHashShaped, startsWithStr] at h

/-! ### Shape of every hash the extractor can return -/

theorem firstHashIn_shape {l : List String} {h : String}
    (he : firstHashIn l = some h) : isHashShaped h = true := by
  unfold firstHashIn at he
  cases hf : l.find? (fun p => isHashShaped (pyStrip p)) with
  | none => rw [hf] at he; simp at he
  | some p =>
    rw [hf] at he
    obtain rfl : pyStrip p = h := by simpa using he
    simpa using List.find?_some hf

theorem orElse_shape {a : Option String} {f : Unit → Option String} {h : String}
    (ha : a = some h → isHashShaped h = true)
    (hf : f () = some h → isHashShaped h = true)
    (he : a.orElse f = some h) : isHashShaped h = true := by
  cases a with
  | none => exact hf (by simpa [Option.orElse] using he)
  | some x => exact ha (by simpa [Option.orElse] using he)

theorem extract_tx_hash_shape {u h : String}
    (he : extract_tx_hash_from_url u = some h) : isHashShaped h = true := by
  unfold extract_tx_hash_from_url at he
  split at he
  · exact absurd he (by simp)
  · dsimp only at he
    split at he
    case isTrue hh => exact (Option.some_inj.mp he) ▸ hh
    case isFalse =>
      exact orElse_shape firstHashIn_shape
        (orElse_shape firstHashIn_shape firstHashIn_shape) he

/-! ### Row invariants -/

theorem extractFromLink_hash {c d : Dict} {ch h : String}
    (he : extractFromLink c = (d, ch, some h)) :
    dGet d "tx_hash" = some (.vstr h) ∧ isHashShaped h = true := by
  unfold extractFromLink at he
  split at he
  case h_1 s hs =>
    split at he
    case h_1 h' hh =>
      rw [Prod.mk.injEq, Prod.mk.injEq] at he
      obtain ⟨hd, -, hsome⟩ := he
      obtain rfl := Option.some_inj.mp hsome
      subst hd
      refine ⟨?_, extract_tx_hash_shape hh⟩
      rw [dGet_dSet_ne _ _ _ _ (by decide), dGet_dSet_self]
    case h_2 => simp at he
  case h_2 => simp at he

theorem isStrHash_spec {v : PyVal} (h : isStrHash v = true) :
    ∃ s, v = .vstr s ∧ isHashShaped s = true := by
  cases v with
  | vstr s =>
    refine ⟨s, rfl, ?_⟩
    simpa [isStrHash] using (Bool.and_elim_right h)
  | vnum q => simp [isStrHash] at h
  | vnone => simp [isStrHash] at h

theorem finalizeRow_txHash (d : Dict) (ch : String) :
    dGet (finalizeRow d ch) "tx_hash" = dGet d "tx_hash" := by
  unfold finalizeRow
  dsimp only
  rw [dGet_dSet_ne _ _ _ _ (by decide)]
  split
  · rw [dGet_dSet_ne _ _ _ _ (by decide), dGet_dSet_ne _ _ _ _ (by decide)]
  · rw [dGet_dSet_ne _ _ _ _ (by decide)]

theorem finalizeRow_purpose (d : Dict) (ch : String) :
    dTruthy (finalizeRow d ch) "purpose" = true := by
  unfold finalizeRow
  dsimp only
  rw [dTruthy_dSet_ne _ _ _ _ (by decide)]
  split
  case isTrue h =>
    simp [dTruthy, dGet_dSet_self, PyVal.truthy]
  case isFalse h =>
    simp only [Bool.or_eq_true, Bool.not_eq_eq_eq_not, Bool.not_true, not_or] at h
    have := h.2
    simpa using this

theorem processRow_invariant {row : RawRow} {d : Dict}
    (he : processRow row = some d) :
    ∃ h, dGet d "tx_hash" = some (.vstr h) ∧ isHashShaped h = true ∧
      dTruthy d "purpose" = true := by
  unfold processRow at he
  dsimp only at he
  rcases h1 : extractFromLink (cleanRowValues row) with ⟨d1, ch, tx⟩
  rw [h1] at he
  cases tx with
  | some h0 =>
    simp only [scanColumns] at he
    obtain rfl : finalizeRow d1 ch = d := by simpa using he
    obtain ⟨hget, hshape⟩ := extractFromLink_hash h1
    exact ⟨h0, by rw [finalizeRow_txHash]; exact hget, hshape,
      finalizeRow_purpose _ _⟩
  | none =>
    simp only [scanColumns] at he
    cases hf : d1.find? (fun kv => isStrHash kv.2) with
    | none => rw [hf] at he; simp at he
    | some kv =>
      rw [hf] at he
      dsimp only at he
      have hstr : isStrHash kv.2 = true := by simpa using List.find?_some hf
      obtain ⟨s0, hs0, hshape⟩ := isStrHash_spec hstr
      rw [hs0] at he
      have hd : d = finalizeRow (dSet d1 "tx_hash" (.vstr s0)) ch := by
        simpa using he.symm
      subst hd
      refine ⟨s0, ?_, hshape, finalizeRow_purpose _ _⟩
      rw [finalizeRow_txHash, dGet_dSet_self]

/-- Generic accounting: filtered length plus dropped count is the input
length. -/
theorem filterMap_length_acc {α β : Type} (f : α → Option β) (l : List α) :
    (l.filterMap f).length + l.countP (fun x => (f x).isNone) = l.length := by
  induction l with
  | nil => simp
  | cons x xs ih =>
    cases hx : f x with
    | none =>
      simp [List.filterMap_cons, hx, List.countP_cons]
      omega
    | some y =>
      simp [List.filterMap_cons, hx, List.countP_cons]
      omega

/-- A hash-shaped but non-hexadecimal string: `0x` followed by 64 `z`s. -/
def zHash : String := "0x" ++ String.mk (List.replicate 64 'z')

/-- A well-formed transaction hash: `0x` followed by 64 hex digits. -/
def goodHash : String := "0x" ++ String.mk (List.replicate 64 'a')

/-- The cleaned row produced for the input row `{"note": zHash}`. -/
def zRow : Dict :=
  [("note", .vstr zHash), ("tx_hash", .vstr zHash), ("chain", .vstr "ETHEREUM"),
   ("purpose", .vstr "General"), ("expense_category", .vstr "General")]

/-- The cleaned row produced for the input row `{"note": goodHash}`. -/
def gRow : Dict :=
  [("note", .vstr goodHash), ("tx_hash", .vstr goodHash), ("chain", .vstr "ETHEREUM"),
   ("purpose", .vstr "General"), ("expense_category", .vstr "General")]

theorem mem_cleaned_invariant {rows : List RawRow} {d : Dict}
    (hd : d ∈ (clean_and_classify_csv rows).2) :
    ∃ h, dGet d "tx_hash" = some (.vstr h) ∧ isHashShaped h = true ∧
      dTruthy d "purpose" = true := by
  have hd' : d ∈ rows.filterMap processRow := by
    simpa [clean_and_classify_csv] using hd
  obtain ⟨r, -, hr⟩ := List.mem_filterMap.mp hd'
  exact processRow_invariant hr

/-- C1 as written is false on the code: the cleaner accepts any
66-character `0x`-prefixed string without checking for hexadecimal
digits, so the row `{"note": "0xzzz…z"}` is emitted with a `tx_hash` that
is not a hexadecimal string. -/
theorem c1_counterexample :
    (clean_and_classify_csv [[("note", zHash)]]).2 = [zRow] ∧
    dGet zRow "tx_hash" = some (.vstr zHash) ∧
    isCanonicalTxHash zHash = false := by decide

/-- C1 (amended): every row emitted by `clean_and_classify_csv` carries a
`tx_hash` value that is a 66-character `0x`-prefixed string (hexadecimal
digits are not verified); the output is exactly the per-row processing of
the input, so a row from which no such string can be derived is skipped
and never emitted, and emitted plus skipped rows account for every input
row. -/
theorem c1_emitted_hash_shape :
    ∀ rows : List RawRow,
      (clean_and_classify_csv rows).2 = rows.filterMap processRow ∧
      (∀ d ∈ (clean_and_classify_csv rows).2,
        ∃ h, dGet d "tx_hash" = some (.vstr h) ∧ isHashShaped h = true) ∧
      (clean_and_classify_csv rows).2.length
        + rows.countP (fun r => (processRow r).isNone) = rows.length := by
  intro rows
  refine ⟨rfl, ?_, filterMap_length_acc processRow rows⟩
  intro d hd
  obtain ⟨h, hget, hshape, -⟩ := mem_cleaned_invariant hd
  exact ⟨h, hget, hshape⟩

/-- Witness for C1's amended theorem at the concrete input
`[{"note": goodHash}]` and its emitted row. -/
theorem c1_emitted_hash_shape_witness :
    ∃ h, dGet gRow "tx_hash" = some (.vstr h) ∧ isHashShaped h = true :=
  (c1_emitted_hash_shape [[("note", goodHash)]]).2.1 gRow (by decide)

/-- Row-level classification is by truthiness, not non-defaultness. -/
theorem determine_eq_tag_iff (row : Dict) :
    determine_function_type row = .TAG_AS_EXPENSE ↔
      (dTruthy row "tx_hash" = true ∧
        (dTruthy row "purpose" = true ∨ dTruthy row "expense_category" = true ∨
         dTruthy row "amount in ETH" = true ∨ dTruthy row "amount in USD" = true)) := by
  unfold determine_function_type
  cases h1 : dTruthy row "tx_hash" <;> cases h2 : dTruthy row "purpose" <;>
    cases h3 : dTruthy row "expense_category" <;>
    cases h4 : dTruthy row "amount in ETH" <;>
    cases h5 : dTruthy row "amount in USD" <;> simp

/-- The classifier never throws and never returns `GET_RECEIPT`. -/
theorem determine_tag_or_get (row : Dict) :
    determine_function_type row = .TAG_AS_EXPENSE ∨
      determine_function_type row = .GET_TRANSACTION := by
  unfold determine_function_type
  cases dTruthy row "tx_hash" <;> cases dTruthy row "purpose" <;>
    cases dTruthy row "expense_category" <;>
    cases dTruthy row "amount in ETH" <;>
    cases dTruthy row "amount in USD" <;> simp

/-- Every emitted row is classified `TAG_AS_EXPENSE`: the cleaner always
sets a truthy `purpose` (defaulting to `"General"`). -/
theorem emitted_classified_tag {rows : List RawRow} {d : Dict}
    (hd : d ∈ (clean_and_classify_csv rows).2) :
    determine_function_type d = .TAG_AS_EXPENSE := by
  obtain ⟨h, hget, hshape, hpurp⟩ := mem_cleaned_invariant hd
  have hne := isHashShaped_ne_empty hshape
  have htx : dTruthy d "tx_hash" = true := by
    simp [dTruthy, hget, PyVal.truthy, hne]
  exact (determine_eq_tag_iff d).mpr ⟨htx, Or.inl hpurp⟩

/-- C2 as written is false on the code: an emitted row whose `purpose` is
the default `"General"` and which has no amount fields is classified
`TAG_AS_EXPENSE`, not `GET_TRANSACTION`, because the classifier tests
truthiness (and `"General"` is truthy), not non-defaultness. -/
theorem c2_counterexample :
    (clean_and_classify_csv [[("note", goodHash)]]).2 = [gRow] ∧
    dGet gRow "purpose" = some (.vstr "General") ∧
    dHasKey gRow "amount in ETH" = false ∧
    dHasKey gRow "amount in USD" = false ∧
    determine_function_type gRow = .TAG_AS_EXPENSE ∧
    ((determine_function_type gRow) == FunctionType.GET_TRANSACTION) = false := by
  decide

/-- C2 (amended): the classifier returns `TAG_AS_EXPENSE` exactly when
`tx_hash` is truthy and one of `purpose`/`expense_category`/the amount
fields is truthy (the default `"General"` counts); in every other case,
including the fallback, it returns `GET_TRANSACTION` without throwing; in
particular every emitted row — whose `purpose` is always truthy — is
classified `TAG_AS_EXPENSE`. -/
theorem c2_classifier_truthiness :
    (∀ row : Dict,
      determine_function_type row = .TAG_AS_EXPENSE ↔
        (dTruthy row "tx_hash" = true ∧
          (dTruthy row "purpose" = true ∨ dTruthy row "expense_category" = true ∨
           dTruthy row "amount in ETH" = true ∨ dTruthy row "amount in USD" = true))) ∧
    (∀ row : Dict, determine_function_type row = .TAG_AS_EXPENSE ∨
      determine_function_type row = .GET_TRANSACTION) ∧
    (∀ rows : List RawRow, ∀ d ∈ (clean_and_classify_csv rows).2,
      determine_function_type d = .TAG_AS_EXPENSE) :=
  ⟨determine_eq_tag_iff, determine_tag_or_get,
    fun _ _ hd => emitted_classified_tag hd⟩

/-- Witness for C2's amended theorem: the emitted `"General"` row from the
concrete input `[{"note": goodHash}]` is classified `TAG_AS_EXPENSE`. -/
theorem c2_classifier_truthiness_witness :
    determine_function_type gRow = .TAG_AS_EXPENSE :=
  c2_classifier_truthiness.2.2 [[("note", goodHash)]] gRow (by decide)

/-! ### Chain detection (C4) -/

/-- `DataExtractor.__init__`/`extract_from_csv` chain inference from
`extractor.py`: the `chain_patterns` regexes tried in declaration order
(most specific first).  `optimism` is the literal
`optimistic.etherscan.io`; `ethereum` is `^(?!.*optimistic).*etherscan\.io`,
i.e. contains `etherscan.io` but nowhere `optimistic`; all matching is
case-insensitive substring search; default `ETHEREUM`. -/
def extractorDetectChain (text : String) : String :=
  let t := pyToLower text
  if strHasSub t "optimistic.etherscan.io" then "OPTIMISM"
  else if !strHasSub t "optimistic" && strHasSub t "etherscan.io" then "ETHEREUM"
  else if strHasSub t "polygonscan.com" then "POLYGON"
  else if strHasSub t "bscscan.com" then "BSC"
  else "ETHEREUM"

theorem strHasSub_iff {hay sub : String} :
    strHasSub hay sub = true ↔ sub.toList <:+: hay.toList := by
  unfold strHasSub
  rw [List.any_eq_true]
  constructor
  · rintro ⟨t, ht, hp⟩
    exact List.infix_iff_prefix_suffix.mpr
      ⟨t, List.isPrefixOf_iff_prefix.mp hp, (List.mem_tails t hay.toList).mp ht⟩
  · intro h
    obtain ⟨t, hp, hs⟩ := List.infix_iff_prefix_suffix.mp h
    exact ⟨t, (List.mem_tails t hay.toList).mpr hs, List.isPrefixOf_iff_prefix.mpr hp⟩

/-- `a` occurs in `b` and `b` occurs in `c`, so `a` occurs in `c`. -/
theorem strHasSub_trans {a b c : String} (hab : strHasSub b a = true)
    (hcb : strHasSub c b = true) : strHasSub c a = true :=
  strHasSub_iff.mpr ((strHasSub_iff.mp hab).trans (strHasSub_iff.mp hcb))

/-- The `"optimistic.etherscan.io" → OPTIMISM` entry of `CHAIN_MAP` is
unreachable in `detect_chain_from_url`: any domain containing it also
contains `"etherscan.io"`, which is tried first. -/
theorem detect_chain_never_optimism (url : String) :
    (detect_chain_from_url url == "OPTIMISM") = false := by
  unfold detect_chain_from_url
  split
  · decide
  · set domain := pyToLower (pyUrlparse url).netloc with hdom
    cases h1 : strHasSub domain "etherscan.io" with
    | true => simp [CHAIN_MAP, List.find?, h1]
    | false =>
      cases h2 : strHasSub domain "polygonscan.com" with
      | true => simp [CHAIN_MAP, List.find?, h1, h2]
      | false =>
        have h3 : strHasSub domain "optimistic.etherscan.io" = false := by
          cases h3 : strHasSub domain "optimistic.etherscan.io" with
          | false => rfl
          | true =>
            exact absurd (strHasSub_trans (a := "etherscan.io") (by decide) h3) (by simp [h1])
        cases h4 : strHasSub domain "arbiscan.io" with
        | true => simp [CHAIN_MAP, List.find?, h1, h2, h3, h4]
        | false =>
          cases h5 : strHasSub domain "basescan.org" with
          | true => simp [CHAIN_MAP, List.find?, h1, h2, h3, h4, h5]
          | false => simp [CHAIN_MAP, List.find?, h1, h2, h3, h4, h5]

/-- C4: chain detection at the claim's inputs.  `detect_chain_from_url`
maps every known explorer domain and the unknown/missing cases as claimed,
except that a URL with domain `optimistic.etherscan.io` is matched by the
generic `etherscan.io` entry first (dict iteration order) and yields
`ETHEREUM`, even though `CHAIN_MAP` itself maps `optimistic.etherscan.io`
to `OPTIMISM` and the sibling `DataExtractor` patterns (ordered most
specific first, with a matching unit test) yield `OPTIMISM` for the same
URL; the unreachability of `OPTIMISM` is stated for every URL. -/
theorem c4_chain_detection_bug :
    detect_chain_from_url "https://optimistic.etherscan.io/tx/0x123" = "ETHEREUM" ∧
    (CHAIN_MAP.find? (fun kv => kv.1 == "optimistic.etherscan.io")).map (·.2)
      = some "OPTIMISM" ∧
    extractorDetectChain "https://optimistic.etherscan.io/tx/0x123" = "OPTIMISM" ∧
    detect_chain_from_url "https://etherscan.io/tx/0x1" = "ETHEREUM" ∧
    detect_chain_from_url "https://polygonscan.com/tx/0x1" = "POLYGON" ∧
    detect_chain_from_url "https://arbiscan.io/tx/0x1" = "ARBITRUM" ∧
    detect_chain_from_url "https://basescan.org/tx/0x1" = "BASE" ∧
    detect_chain_from_url "" = "ETHEREUM" ∧
    detect_chain_from_url "https://unknown.example.com/tx/0x1" = "ETHEREUM" ∧
    (∀ url : String, (detect_chain_from_url url == "OPTIMISM") = false) :=
  ⟨by decide, by decide, by decide, by decide, by decide, by decide, by decide,
   by decide, by decide, detect_chain_never_optimism⟩

/-! ### ApiCallRequest production for tag_as_expense (C3) -/

/-- An API call request: `{method: …, params: …}`.  The `timestamp` field
added by `api_functions.py` (a wall-clock reading) is omitted from the
model; no claim mentions it. -/
structure ApiCall where
  method : String
  params : Dict
  deriving DecidableEq, Repr

/-- `api_functions.tag_as_expense`: raises when `tx_hash` is falsy,
otherwise returns the request dict built on lines 35–45.  Note the
category is stored under the key `purpose` (with fallback
`"Unspecified"`); there is no `expense_category` key.  Extra `**kwargs`
are accepted and ignored, as in the code. -/
def tag_as_expense (tx_hash : String) (purpose : Option String)
    (amount_in_eth amount_in_usd : Option ℚ) (chain : String) :
    Except String ApiCall :=
  if tx_hash == "" then .error "Transaction hash is required"
  else .ok
    { method := "tag_as_expense",
      params :=
        [("tx_hash", .vstr tx_hash),
         ("chain", .vstr chain),
         ("purpose", .vstr (match purpose with
            | some s => if s == "" then "Unspecified" else s
            | none => "Unspecified")),
         ("amount_in_eth", match amount_in_eth with
            | some q => .vnum q
            | none => .vnone),
         ("amount_in_usd", match amount_in_usd with
            | some q => .vnum q
            | none => .vnone)] }

/-- The parameter dict built by `processor.process_natural_language`
lines 202–208 for `tag_as_expense` (this sibling producer does use the
`expense_category` key).  The enclosing loop is unreachable in the current
code: line 192 calls the nonexistent `CSVParser._extract_tx_hash_and_chain`,
so every row raises `AttributeError` and is skipped. -/
def pnlTagParams (tx_hash chain : String) (purpose : Option String)
    (amount_in_eth amount_in_usd : Option ℚ) : Dict :=
  [("tx_hash", .vstr tx_hash),
   ("chain", .vstr chain),
   ("expense_category", .vstr (purpose.getD "Unspecified")),
   ("amount_in_eth", match amount_in_eth with
      | some q => .vnum q
      | none => .vnone),
   ("amount_in_usd", match amount_in_usd with
      | some q => .vnum q
      | none => .vnone)]

/-- C3: evaluated at the failing input, the request produced by
`api_functions.tag_as_expense` for method `tag_as_expense` has `tx_hash`
and `chain` in its params but no `expense_category` key (the category sits
under `purpose`), contradicting the required-parameter set
{chain, tx_hash, expense_category} of the spec and of the repo's own
`api_docs.py`; the sibling builder in `process_natural_language` does
contain all three required keys. -/
theorem c3_tag_as_expense_params_bug :
    ((tag_as_expense goodHash (some "Meals") none none "ETHEREUM").toOption.map
      (fun c => (c.method, dHasKey c.params "tx_hash", dHasKey c.params "chain",
        dHasKey c.params "expense_category", dHasKey c.params "purpose")))
      = some ("tag_as_expense", true, true, false, true) ∧
    (dHasKey (pnlTagParams goodHash "ETHEREUM" (some "Meals") none none) "tx_hash",
     dHasKey (pnlTagParams goodHash "ETHEREUM" (some "Meals") none none) "chain",
     dHasKey (pnlTagParams goodHash "ETHEREUM" (some "Meals") none none) "expense_category")
      = (true, true, true) := by decide

/-! ### Batch execution (C7, C8) -/

/-- `batch_executor.ExecutionResult` (the `timestamp` wall-clock field is
omitted; no claim mentions it). -/
structure ExecutionResult (β : Type) where
  success : Bool
  data : Option β
  error : Option String
  row_number : ℕ
  deriving DecidableEq, Repr

/-- `BatchExecutor._execute_single`.  The wrapped Python function either
raises (modelled `.error`) or returns a value that may itself be `None`
(modelled `Except String (Option β)`); the returned value is stored in
`data` unchanged, so `data` is `None` exactly when the function returned
`None`. -/
def executeSingle {α β : Type} (func : α → Except String (Option β))
    (a : α) (rn : ℕ) : ExecutionResult β :=
  match func a with
  | .ok v => ⟨true, v, none, rn⟩
  | .error e => ⟨false, none, some e, rn⟩

/-- `csv_parser.ParsedRow` (method field omitted; it is constant
`GET_EVENTS` and never read by `_process_single_row`). -/
structure ParsedRow where
  params : Dict
  raw_data : Dict
  row_number : ℕ
  deriving DecidableEq, Repr

/-- `processor._process_single_row`, with the Gateway
(`generate_api_calls`) as an oracle mapping `(tx_hash, chain)` to the
generated call list.  Returns `None` — not an error — when the row has no
truthy `tx_hash` or the oracle produces no calls; its `except` branch
converts any failure to `None` as well, so the function never raises. -/
def processSingleRow (oracle : String → String → List ApiCall)
    (row : ParsedRow) : Option (ℕ × List ApiCall × Dict) :=
  if !dTruthy row.params "tx_hash" then none
  else
    match dGet row.params "tx_hash" with
    | some (.vstr h) =>
      let chain := match dGet row.raw_data "chain" with
        | some (.vstr c) => c
        | some _ => "ETHEREUM"
        | none => "ETHEREUM"
      let calls := oracle h chain
      if calls.isEmpty then none else some (row.row_number, calls, row.raw_data)
    | _ => none

/-- The futures submitted by `BatchExecutor.execute` lines 75–85: one task
per `zip(data_list, row_numbers)` pair, with `row_numbers` defaulting to
`1..len(data_list)`. -/
def batchTasks {α β : Type} (func : α → Except String (Option β))
    (data : List α) (rowNumbers : Option (List ℕ)) : List (ExecutionResult β) :=
  let rns := rowNumbers.getD (List.range' 1 data.length)
  (data.zip rns).map (fun p => executeSingle func p.1 p.2)

/-- `BatchExecutor.execute`: results are collected in completion order
(`as_completed`, modelled by an arbitrary permutation `completion` of the
task indices) and then sorted by row number.  The `except` around
`future.result()` is unreachable: `_execute_single` catches everything. -/
def executeBatch {α β : Type} (func : α → Except String (Option β))
    (data : List α) (rowNumbers : Option (List ℕ)) (completion : List ℕ) :
    List (ExecutionResult β) :=
  (completion.filterMap (fun i => (batchTasks func data rowNumbers)[i]?)).mergeSort
    (fun a b => a.row_number ≤ b.row_number)

theorem filterMap_getElem_range {α : Type} (l : List α) :
    (List.range l.length).filterMap (fun i => l[i]?) = l := by
  induction l with
  | nil => simp
  | cons x xs ih =>
    rw [List.length_cons, List.range_succ_eq_map, List.filterMap_cons]
    simp only [List.getElem?_cons_zero, List.filterMap_map, Function.comp_def,
      List.getElem?_cons_succ, Nat.succ_eq_add_one]
    rw [ih]

theorem executeBatch_perm {α β : Type} (func : α → Except String (Option β))
    (data : List α) (rowNumbers : Option (List ℕ)) (completion : List ℕ)
    (hc : completion.Perm (List.range (batchTasks func data rowNumbers).length)) :
    (executeBatch func data rowNumbers completion).Perm
      (batchTasks func data rowNumbers) := by
  refine (List.mergeSort_perm _ _).trans ?_
  refine (hc.filterMap _).trans ?_
  rw [filterMap_getElem_range]

/-- `batch_caller.CallResult` (timestamp omitted). -/
structure CallResult (β : Type) where
  success : Bool
  row_number : ℕ
  data : Option β
  error : Option String
  deriving DecidableEq, Repr

/-- The retry loop of `for_loop_caller` lines 44–67 for one row: `attempt`
is the current index, `rem + 1` the attempts still allowed; a success
breaks out, the final failure produces a failure `CallResult`.  With zero
allowed attempts the loop never runs and `result` stays `None`. -/
def attemptGo {β : Type} (f : ℕ → Except String β) (rn : ℕ) :
    ℕ → ℕ → Option (CallResult β)
  | _, 0 => none
  | attempt, rem + 1 =>
    match f attempt with
    | .ok b => some ⟨true, rn, some b, none⟩
    | .error e =>
      if rem == 0 then some ⟨false, rn, none, some e⟩
      else attemptGo f rn (attempt + 1) rem

/-- The row loop of `for_loop_caller`: rows are numbered from 1 and a
`CallResult` is appended whenever the attempt loop produced one. -/
def forLoopGo {α β : Type} (f : ℕ → α → Except String β) (maxR : ℕ) :
    ℕ → List α → List (CallResult β)
  | _, [] => []
  | rn, row :: rest =>
    match attemptGo (fun att => f att row) rn 0 maxR with
    | some r => r :: forLoopGo f maxR (rn + 1) rest
    | none => forLoopGo f maxR (rn + 1) rest

/-- `batch_caller.for_loop_caller`: per-row retries (the per-attempt
outcome is `f attempt row`), returning the results plus the failed row
numbers. -/
def for_loop_caller {α β : Type} (rows : List α)
    (f : ℕ → α → Except String β) (maxR : ℕ) :
    List (CallResult β) × List ℕ :=
  let results := forLoopGo f maxR 1 rows
  (results, (results.filter (fun r => !r.success)).map (fun r => r.row_number))

theorem attemptGo_isSome {β : Type} (f : ℕ → Except String β) (rn : ℕ) :
    ∀ (r a : ℕ), 0 < r → (attemptGo f rn a r).isSome = true := by
  intro r
  induction r with
  | zero => intro a h; exact absurd h (by simp)
  | succ rem ih =>
    intro a _
    unfold attemptGo
    cases f a with
    | ok b => simp
    | error e =>
      by_cases hr : rem = 0
      · simp [hr]
      · simpa [hr] using ih (a + 1) (Nat.pos_of_ne_zero hr)

theorem attemptGo_rn {β : Type} {f : ℕ → Except String β} {rn : ℕ} :
    ∀ {r a : ℕ} {c : CallResult β}, attemptGo f rn a r = some c →
      c.row_number = rn := by
  intro r
  induction r with
  | zero => intro a c h; simp [attemptGo] at h
  | succ rem ih =>
    intro a c h
    unfold attemptGo at h
    cases hf : f a with
    | ok b => rw [hf] at h; cases h; rfl
    | error e =>
      rw [hf] at h
      dsimp only at h
      by_cases hr : rem = 0
      · rw [if_pos (by simpa using hr)] at h; cases h; rfl
      · rw [if_neg (by simpa using hr)] at h; exact ih h

theorem forLoopGo_length {α β : Type} (f : ℕ → α → Except String β)
    (maxR : ℕ) (hm : 0 < maxR) :
    ∀ (rows : List α) (k : ℕ), (forLoopGo f maxR k rows).length = rows.length := by
  intro rows
  induction rows with
  | nil => intro k; rfl
  | cons row rest ih =>
    intro k
    unfold forLoopGo
    cases ha : attemptGo (fun att => f att row) k 0 maxR with
    | none =>
      have := attemptGo_isSome (fun att => f att row) k maxR 0 hm
      rw [ha] at this
      simp at this
    | some r => simp [ih]

theorem forLoopGo_rn_bound {α β : Type} {f : ℕ → α → Except String β}
    {maxR : ℕ} : ∀ {rows : List α} {k : ℕ} {c : CallResult β},
    c ∈ forLoopGo f maxR k rows → k ≤ c.row_number := by
  intro rows
  induction rows with
  | nil => intro k c h; simp [forLoopGo] at h
  | cons row rest ih =>
    intro k c h
    unfold forLoopGo at h
    cases ha : attemptGo (fun att => f att row) k 0 maxR with
    | none =>
      rw [ha] at h
      exact le_trans (Nat.le_succ k) (ih h)
    | some r =>
      rw [ha] at h
      rcases List.mem_cons.mp h with rfl | hmem
      · exact le_of_eq (attemptGo_rn ha).symm
      · exact le_trans (Nat.le_succ k) (ih hmem)

theorem forLoopGo_pairwise {α β : Type} (f : ℕ → α → Except String β)
    (maxR : ℕ) :
    ∀ (rows : List α) (k : ℕ),
      List.Pairwise (fun a b => a.row_number < b.row_number)
        (forLoopGo f maxR k rows) := by
  intro rows
  induction rows with
  | nil => intro k; exact List.Pairwise.nil
  | cons row rest ih =>
    intro k
    unfold forLoopGo
    cases ha : attemptGo (fun att => f att row) k 0 maxR with
    | none => exact ih (k + 1)
    | some r =>
      refine List.Pairwise.cons ?_ (ih (k + 1))
      intro c hc
      have h1 : r.row_number = k := attemptGo_rn ha
      have h2 : k + 1 ≤ c.row_number := forLoopGo_rn_bound hc
      omega

/-- C7: for every input list, the Batch Dispatcher returns exactly one
`ExecutionResult` per submitted row — a permutation of the per-row results
with `len(results) == len(input_rows)` whenever the optional row-number
list is absent or of matching length — sorted ascending by row number for
every completion order, and (being a total function) lets no per-row
exception escape; `for_loop_caller` likewise returns one `CallResult` per
row (for a positive retry budget) in strictly ascending row order. -/
theorem c7_dispatcher_order_length :
    (∀ (α β : Type) (func : α → Except String (Option β)) (data : List α)
      (rowNumbers : Option (List ℕ)) (completion : List ℕ),
      completion.Perm (List.range (batchTasks func data rowNumbers).length) →
      (executeBatch func data rowNumbers completion).Perm
          (batchTasks func data rowNumbers) ∧
        ((rowNumbers = none ∨
            ∃ rns, rowNumbers = some rns ∧ rns.length = data.length) →
          (executeBatch func data rowNumbers completion).length = data.length)) ∧
    (∀ (α β : Type) (func : α → Except String (Option β)) (data : List α)
      (rowNumbers : Option (List ℕ)) (completion : List ℕ),
      List.Pairwise (fun a b : ExecutionResult β => a.row_number ≤ b.row_number)
        (executeBatch func data rowNumbers completion)) ∧
    (∀ (α β : Type) (rows : List α) (f : ℕ → α → Except String β) (maxR : ℕ),
      0 < maxR → (for_loop_caller rows f maxR).1.length = rows.length) ∧
    (∀ (α β : Type) (rows : List α) (f : ℕ → α → Except String β) (maxR : ℕ),
      List.Pairwise (fun a b : CallResult β => a.row_number < b.row_number)
        (for_loop_caller rows f maxR).1) := by
  refine ⟨?_, ?_, ?_, ?_⟩
  · intro α β func data rowNumbers completion hc
    have hperm := executeBatch_perm func data rowNumbers completion hc
    refine ⟨hperm, ?_⟩
    rintro (rfl | ⟨rns, rfl, hlen⟩)
    · rw [hperm.length_eq]
      simp [batchTasks, List.length_range']
    · rw [hperm.length_eq]
      simp [batchTasks, hlen]
  · intro α β func data rowNumbers completion
    have h := @List.sorted_mergeSort (ExecutionResult β)
      (fun a b => a.row_number ≤ b.row_number)
      (fun a b c hab hbc => by
        simp only [decide_eq_true_eq] at hab hbc ⊢
        omega)
      (fun a b => by
        simpa using Nat.le_total a.row_number b.row_number)
      (completion.filterMap (fun i => (batchTasks func data rowNumbers)[i]?))
    exact h.imp (fun hab => by simpa using hab)
  · intro α β rows f maxR hm
    exact forLoopGo_length f maxR hm rows 1
  · intro α β rows f maxR
    exact forLoopGo_pairwise f maxR rows 1

/-- Witness for C7 at a concrete batch: two rows, default row numbers, and
the shuffled completion order `[1, 0]`. -/
theorem c7_dispatcher_order_length_witness :
    (executeBatch (fun n : ℕ => if n == 10 then Except.error "boom"
        else Except.ok (some n)) [10, 20] none [1, 0]).Perm
      (batchTasks (fun n : ℕ => if n == 10 then Except.error "boom"
        else Except.ok (some n)) [10, 20] none) ∧
    (executeBatch (fun n : ℕ => if n == 10 then Except.error "boom"
        else Except.ok (some n)) [10, 20] none [1, 0]).length = 2 :=
  ⟨(c7_dispatcher_order_length.1 ℕ ℕ _ [10, 20] none [1, 0] (by decide)).1,
   (c7_dispatcher_order_length.1 ℕ ℕ _ [10, 20] none [1, 0] (by decide)).2
     (Or.inl rfl)⟩

/-- C8 as written is false on the code: `_process_single_row` returns
`None` (for instance when the row has no `tx_hash`), and `_execute_single`
wraps that as `success = True` with `data = None` and `error = None`, so a
successful `ExecutionResult` can carry null data. -/
theorem c8_counterexample :
    (processSingleRow (fun _ _ => []) ⟨[], [], 1⟩).isNone = true ∧
    (executeSingle (fun r => Except.ok (processSingleRow (fun _ _ => []) r))
        ⟨[], [], 1⟩ 1).success = true ∧
    ((executeSingle (fun r => Except.ok (processSingleRow (fun _ _ => []) r))
        ⟨[], [], 1⟩ 1).data).isNone = true ∧
    ((executeSingle (fun r => Except.ok (processSingleRow (fun _ _ => []) r))
        ⟨[], [], 1⟩ 1).error).isNone = true := by decide

/-- C8 (amended): when `success` is false, `error` is non-null and `data`
is null; when `success` is true, `error` is null and `data` holds exactly
the wrapped function's return value — which is non-null unless the wrapped
function itself returned `None`, as `_process_single_row` does for rows
without a usable hash. -/
theorem c8_result_invariant :
    ∀ (α β : Type) (func : α → Except String (Option β)) (a : α) (rn : ℕ),
      ((executeSingle func a rn).success = false →
        (executeSingle func a rn).data = none ∧
        ((executeSingle func a rn).error).isSome = true) ∧
      ((executeSingle func a rn).success = true →
        (executeSingle func a rn).error = none) ∧
      (∀ v, func a = .ok v → executeSingle func a rn = ⟨true, v, none, rn⟩) ∧
      (∀ e, func a = .error e →
        executeSingle func a rn = ⟨false, none, some e, rn⟩) := by
  intro α β func a rn
  cases hf : func a with
  | ok v =>
    refine ⟨?_, ?_, ?_, ?_⟩ <;> simp [executeSingle, hf]
  | error e =>
    refine ⟨?_, ?_, ?_, ?_⟩ <;> simp [executeSingle, hf]

/-- Witness for C8's amended theorem at a failing and a succeeding call. -/
theorem c8_result_invariant_witness :
    ((executeSingle (fun _ : Unit => (Except.error "boom" : Except String (Option ℕ)))
        () 1).data = none ∧
      ((executeSingle (fun _ : Unit => (Except.error "boom" : Except String (Option ℕ)))
        () 1).error).isSome = true) ∧
    (executeSingle (fun _ : Unit => (Except.ok (some 7) : Except String (Option ℕ)))
        () 2).error = none :=
  ⟨(c8_result_invariant Unit ℕ _ () 1).1 (by decide),
   (c8_result_invariant Unit ℕ _ () 2).2.1 (by decide)⟩

/-! ### Gateway retry policy (C6, C10) -/

/-- Trace of one method's retry loop in `call_ollama`: the final result,
the number of service invocations made, and the sleeps performed between
failed attempts. -/
structure MethodTrace where
  result : Option ApiCall
  attempts : ℕ
  sleeps : List ℕ
  deriving DecidableEq, Repr

/-- The retry loop of `llm_client.call_ollama` lines 118–136 for one
method.  `generate_single_api_call` is an oracle from attempt index to
`Option ApiCall`: it returns `None` on a subprocess timeout or an
unparseable/invalid response, and catches every exception itself, so the
`except` branch of the loop is unreachable.  A failed attempt that is not
the last sleeps `base_delay * 2 ** attempt` seconds before retrying. -/
def methodGo (oracle : ℕ → Option ApiCall) (baseDelay : ℕ) :
    ℕ → ℕ → MethodTrace
  | _, 0 => ⟨none, 0, []⟩
  | attempt, rem + 1 =>
    match oracle attempt with
    | some c => ⟨some c, 1, []⟩
    | none =>
      if rem == 0 then ⟨none, 1, []⟩
      else
        let t := methodGo oracle baseDelay (attempt + 1) rem
        ⟨t.result, t.attempts + 1, baseDelay * 2 ^ attempt :: t.sleeps⟩

/-- `llm_client.call_ollama` with the service as an oracle from
`(method, attempt)` to `Option ApiCall`: validate the hash (a Python
`None` or non-string argument is modelled by `none`), then run the retry
loop (`max_retries = 3`, `base_delay = 2`) for each of the two methods,
collecting the successful calls; the per-method traces are returned
alongside.  An empty trace list means the service was never invoked. -/
def call_ollama (oracle : String → ℕ → Option ApiCall)
    (txHash : Option String) : List ApiCall × List (String × MethodTrace) :=
  match txHash with
  | none => ([], [])
  | some h =>
    if h == "" then ([], [])
    else if !startsWithStr h "0x" then ([], [])
    else
      let traces := ["get_transaction", "get_receipt"].map
        (fun m => (m, methodGo (oracle m) 2 0 3))
      (traces.filterMap (fun t => t.2.result), traces)

/-- `llm_client.generate_api_calls`, the thin wrapper around
`call_ollama`. -/
def generate_api_calls (oracle : String → ℕ → Option ApiCall)
    (txHash : Option String) : List ApiCall × List (String × MethodTrace) :=
  call_ollama oracle txHash

theorem methodGo_attempts_le (oracle : ℕ → Option ApiCall) (b : ℕ) :
    ∀ (r a : ℕ), (methodGo oracle b a r).attempts ≤ r := by
  intro r
  induction r with
  | zero => intro a; simp [methodGo]
  | succ rem ih =>
    intro a
    unfold methodGo
    cases oracle a with
    | some c => simp
    | none =>
      by_cases hr : rem = 0
      · simp [hr]
      · simpa [hr] using ih (a + 1)

theorem methodGo_attempts_pos (oracle : ℕ → Option ApiCall) (b : ℕ) :
    ∀ (r a : ℕ), 0 < r → 0 < (methodGo oracle b a r).attempts := by
  intro r
  induction r with
  | zero => intro a h; exact absurd h (by simp)
  | succ rem ih =>
    intro a _
    unfold methodGo
    cases oracle a with
    | some c => simp
    | none =>
      by_cases hr : rem = 0
      · simp [hr]
      · simp [hr]

theorem rangeExp_succ (b a k : ℕ) :
    (List.range (k + 1)).map (fun i => b * 2 ^ (a + i)) =
      b * 2 ^ a :: (List.range k).map (fun i => b * 2 ^ (a + 1 + i)) := by
  rw [List.range_succ_eq_map, List.map_cons, List.map_map]
  refine congrArg₂ _ (by simp) ?_
  have hf : (fun i => b * 2 ^ (a + i)) ∘ Nat.succ =
      fun i => b * 2 ^ (a + 1 + i) := by
    funext i
    simp only [Function.comp_apply]
    congr 1
    congr 1
    omega
  rw [hf]

/-- The sleeps of one retry loop are exactly
`base_delay * 2 ** attempt` for the non-final failed attempts: with
`attempt` starting at `a`, the delay doubles on each retry. -/
theorem methodGo_sleeps (oracle : ℕ → Option ApiCall) (b : ℕ) :
    ∀ (r a : ℕ),
      (methodGo oracle b a r).sleeps =
        (List.range ((methodGo oracle b a r).attempts - 1)).map
          (fun i => b * 2 ^ (a + i)) := by
  intro r
  induction r with
  | zero => intro a; simp [methodGo]
  | succ rem ih =>
    intro a
    unfold methodGo
    cases oracle a with
    | some c => simp
    | none =>
      by_cases hr : rem = 0
      · simp [hr]
      · rw [if_neg (by simpa using hr)]
        dsimp only
        rw [ih (a + 1), Nat.add_sub_cancel]
        have hpos := methodGo_attempts_pos oracle b rem (a + 1)
          (Nat.pos_of_ne_zero hr)
        rw [show (methodGo oracle b (a + 1) rem).attempts =
            ((methodGo oracle b (a + 1) rem).attempts - 1) + 1 from
          (Nat.succ_pred_eq_of_pos hpos).symm]
        rw [rangeExp_succ]
        rw [Nat.add_sub_cancel]

theorem methodGo_attempts_or (oracle : ℕ → Option ApiCall) (b : ℕ) :
    ∀ (r a : ℕ), ((methodGo oracle b a r).result).isSome = true ∨
      (methodGo oracle b a r).attempts = r := by
  intro r
  induction r with
  | zero => intro a; right; simp [methodGo]
  | succ rem ih =>
    intro a
    unfold methodGo
    cases oracle a with
    | some c => left; simp
    | none =>
      by_cases hr : rem = 0
      · right; simp [hr]
      · rw [if_neg (by simpa using hr)]
        dsimp only
        rcases ih (a + 1) with hs | he
        · left; exact hs
        · right; rw [he]

/-- Reaching the retry ceiling: a loop that ends with no result has used
every allowed attempt. -/
theorem methodGo_none_attempts (oracle : ℕ → Option ApiCall) (b : ℕ) :
    ∀ (r a : ℕ), (methodGo oracle b a r).result = none →
      (methodGo oracle b a r).attempts = r := by
  intro r a h
  rcases methodGo_attempts_or oracle b r a with hs | he
  · rw [h] at hs; simp at hs
  · exact he

theorem methodGo_result_of_oracle_none {oracle : ℕ → Option ApiCall}
    {b : ℕ} (hor : ∀ a, oracle a = none) :
    ∀ (r a : ℕ), (methodGo oracle b a r).result = none := by
  intro r
  induction r with
  | zero => intro a; simp [methodGo]
  | succ rem ih =>
    intro a
    unfold methodGo
    rw [hor a]
    by_cases hr : rem = 0
    · simp [hr]
    · rw [if_neg (by simpa using hr)]
      dsimp only
      exact ih (a + 1)

/-- C6: for a valid hash, each of the two logical Gateway calls makes at
most 3 service invocations; the sleeps between failed attempts are exactly
`2 * 2 ** attempt` (the base delay of 2 doubling on each retry); a failed
attempt — timeout or unparseable response, both `none` from the oracle —
consumes a retry; a loop that reaches the ceiling has made exactly 3
attempts; and when every attempt fails the call returns the empty list
(the model is a total function: no exception propagates). -/
theorem c6_retry_policy :
    ∀ (oracle : String → ℕ → Option ApiCall) (h : String),
      startsWithStr h "0x" = true →
      (∀ tr ∈ (call_ollama oracle (some h)).2,
        tr.2.attempts ≤ 3 ∧
        tr.2.sleeps = (List.range (tr.2.attempts - 1)).map (fun i => 2 * 2 ^ i) ∧
        (tr.2.result = none → tr.2.attempts = 3)) ∧
      ((∀ m a, oracle m a = none) → (call_ollama oracle (some h)).1 = []) := by
  intro oracle h hsw
  have h0 : (h == "") = false := by
    by_cases hh : h = ""
    · subst hh; exact absurd hsw (by decide)
    · simp [hh]
  constructor
  · intro tr htr
    simp only [call_ollama, h0, hsw, Bool.not_true, Bool.false_eq_true,
      if_false, List.map_cons, List.map_nil] at htr
    have main : ∀ m : String, tr = (m, methodGo (oracle m) 2 0 3) →
        tr.2.attempts ≤ 3 ∧
        tr.2.sleeps = (List.range (tr.2.attempts - 1)).map (fun i => 2 * 2 ^ i) ∧
        (tr.2.result = none → tr.2.attempts = 3) := by
      rintro m rfl
      refine ⟨methodGo_attempts_le _ _ 3 0, ?_, methodGo_none_attempts _ _ 3 0⟩
      simpa using methodGo_sleeps (oracle m) 2 3 0
    rcases List.mem_cons.mp htr with rfl | htr2
    · exact main "get_transaction" rfl
    · rcases List.mem_singleton.mp htr2 with rfl
      exact main "get_receipt" rfl
  · intro hor
    simp only [call_ollama, h0, hsw, Bool.not_true, Bool.false_eq_true,
      if_false, List.map_cons, List.map_nil]
    rw [List.filterMap_cons, List.filterMap_cons]
    rw [methodGo_result_of_oracle_none (hor "get_transaction") 3 0]
    rw [methodGo_result_of_oracle_none (hor "get_receipt") 3 0]
    rfl

/-- Witness for C6 at the all-failing oracle and a concrete hash: three
attempts for the first method, sleeps `[2, 4]`, empty result. -/
theorem c6_retry_policy_witness :
    (call_ollama (fun _ _ => none) (some goodHash)).1 = [] ∧
    (("get_transaction", methodGo (fun _ => none) 2 0 3) :
        String × MethodTrace).2.attempts ≤ 3 ∧
    (methodGo (fun _ => none) 2 0 3).sleeps = [2, 4] ∧
    (methodGo (fun _ => none) 2 0 3).attempts = 3 :=
  ⟨(c6_retry_policy (fun _ _ => none) goodHash (by decide)).2 (fun _ _ => rfl),
   ((c6_retry_policy (fun _ _ => none) goodHash (by decide)).1
      ("get_transaction", methodGo (fun _ => none) 2 0 3) (by decide)).1,
   by decide, by decide⟩

/-- C10: a `None`/non-string, empty, or non-`0x`-prefixed hash makes
`call_ollama` (and its wrapper `generate_api_calls`) return the empty list
with an empty invocation trace — the service is never called — and, being
total, without raising. -/
theorem c10_invalid_hash_no_call :
    ∀ oracle : String → ℕ → Option ApiCall,
      call_ollama oracle none = ([], []) ∧
      call_ollama oracle (some "") = ([], []) ∧
      (∀ s, startsWithStr s "0x" = false → call_ollama oracle (some s) = ([], [])) ∧
      generate_api_calls oracle none = ([], []) ∧
      (∀ s, startsWithStr s "0x" = false →
        generate_api_calls oracle (some s) = ([], [])) := by
  intro oracle
  have hs : ∀ s, startsWithStr s "0x" = false →
      call_ollama oracle (some s) = ([], []) := by
    intro s hsf
    by_cases hh : s = ""
    · subst hh; rfl
    · simp [call_ollama, hh, hsf]
  exact ⟨rfl, rfl, hs, rfl, hs⟩

/-- Witness for C10 at the concrete invalid hashes `"abc"` and `None`. -/
theorem c10_invalid_hash_no_call_witness :
    call_ollama (fun _ _ => none) (some "abc") = ([], []) ∧
    generate_api_calls (fun _ _ => none) none = ([], []) :=
  ⟨(c10_invalid_hash_no_call (fun _ _ => none)).2.2.1 "abc" (by decide),
   (c10_invalid_hash_no_call (fun _ _ => none)).2.2.2.1⟩

/-! ### Structured-payload extraction (C5) -/

/-- Recursion core of `removeFences`; fuel forces structural recursion and
is instantiated with the input length, which bounds the number of steps
(every step consumes at least one character). -/
def removeFencesFuel : ℕ → List Char → List Char
  | 0, s => s
  | _ + 1, [] => []
  | fuel + 1, c :: rest =>
    if "```json".toList.isPrefixOf (c :: rest) then
      removeFencesFuel fuel (((c :: rest).drop 7).dropWhile Char.isWhitespace)
    else
      let w := (c :: rest).takeWhile Char.isWhitespace
      if "```".toList.isPrefixOf ((c :: rest).drop w.length) then
        removeFencesFuel fuel (((c :: rest).drop w.length).drop 3)
      else
        c :: removeFencesFuel fuel rest

/-- Model of the fence-stripping `re.sub` on `'''json\s*|\s*'''` patterns
(llm_client lines 43, 174, 256; backtick fences): scan left to right; at
each position try the first alternative (the fence-plus-`json` tag,
greedily eating the following whitespace), then the second (a greedy
whitespace run that must be followed by a bare fence); on a match resume
after it, otherwise emit the character.  The second alternative fires at a
whitespace position *before* a `json` fence and leaves the `json` tag
behind, exactly as CPython's `re.sub` does. -/
def removeFences (s : List Char) : List Char :=
  removeFencesFuel s.length s

/-- The balanced scan of `generate_single_api_call` lines 52–63 (and the
bracket version at lines 263–271): starting at the first opening
delimiter, count nesting depth and stop at the character that returns it
to zero; `depth` is the count before the current character, `acc` the
consumed characters in reverse.  Running off the end is the loop's `else`
branch (`None`). -/
def scanBalanced (opn cls : Char) : ℕ → List Char → List Char → Option (List Char)
  | _, _, [] => none
  | depth, acc, c :: rest =>
    if c == opn then scanBalanced opn cls (depth + 1) (c :: acc) rest
    else if c == cls then
      if depth == 1 then some (c :: acc).reverse
      else scanBalanced opn cls (depth - 1) (c :: acc) rest
    else scanBalanced opn cls depth (c :: acc) rest

/-- `json_str.find(opn)` followed by the balanced scan: `none` when no
opening delimiter occurs (Python's `find` returning `-1`). -/
def extractBalanced (opn cls : Char) (s : String) : Option String :=
  match s.toList.dropWhile (fun c => c != opn) with
  | [] => none
  | rest => (scanBalanced opn cls 0 [] rest).map String.mk

/-- The extraction pipeline of `generate_single_api_call` lines 40–63 at
string level: strip, remove code-fence markers, then slice the first
brace-balanced substring (which line 69 hands to `json.loads`). -/
def extractJsonObjectString (response : String) : Option String :=
  let s1 := pyStrip response
  let s2 := String.mk (removeFences s1.toList)
  extractBalanced '\x7b' '\x7d' s2

/-- The array version used by `generate_api_call_list_from_prompt_and_csv`
lines 255–274. -/
def extractJsonArrayString (response : String) : Option String :=
  let s1 := pyStrip response
  let s2 := String.mk (removeFences s1.toList)
  extractBalanced '[' ']' s2

/-- Depth contribution of one character. -/
def delta (opn cls : Char) (c : Char) : ℤ :=
  if c == opn then 1 else if c == cls then -1 else 0

/-- Net nesting depth of a character list. -/
def netDepth (opn cls : Char) (cs : List Char) : ℤ :=
  (cs.map (delta opn cls)).sum

theorem netDepth_append (opn cls : Char) (a b : List Char) :
    netDepth opn cls (a ++ b) = netDepth opn cls a + netDepth opn cls b := by
  simp [netDepth]

theorem netDepth_singleton (opn cls c : Char) :
    netDepth opn cls [c] = delta opn cls c := by
  simp [netDepth]

theorem dropWhile_append_of_all {α : Type} (p : α → Bool) (A X : List α)
    (hA : ∀ a ∈ A, p a = true) :
    (A ++ X).dropWhile p = X.dropWhile p := by
  induction A with
  | nil => rfl
  | cons a rest ih =>
    rw [List.cons_append, List.dropWhile_cons_of_pos (hA a (by simp))]
    exact ih (fun x hx => hA x (by simp [hx]))

theorem scanBalanced_spec (opn cls : Char) (hne : opn ≠ cls)
    (payload B : List Char)
    (hnet : netDepth opn cls payload = 0)
    (hpos : ∀ p, p <+: payload → p ≠ [] → p ≠ payload → 0 < netDepth opn cls p) :
    ∀ (todo done : List Char) (depth : ℕ),
      done ++ todo = payload → done ≠ [] → todo ≠ [] →
      (depth : ℤ) = netDepth opn cls done →
      scanBalanced opn cls depth done.reverse (todo ++ B) = some payload := by
  intro todo
  induction todo with
  | nil => intro done depth _ _ h3 _; exact absurd rfl h3
  | cons c todo' ih =>
    intro done depth h1 h2 _ h4
    have hdonePre : done <+: payload := ⟨c :: todo', h1⟩
    have hdoneNe : done ≠ payload := by
      intro he
      have := congrArg List.length h1
      rw [he] at this
      simp at this
    have hdpos : (0 : ℤ) < netDepth opn cls done := hpos done hdonePre h2 hdoneNe
    have hnext : netDepth opn cls (done ++ [c]) =
        netDepth opn cls done + delta opn cls c := by
      rw [netDepth_append, netDepth_singleton]
    have hassoc : (done ++ [c]) ++ todo' = payload := by
      simpa using h1
    have hrev : (c :: done.reverse) = (done ++ [c]).reverse := by simp
    have hfull : todo' = [] → netDepth opn cls done + delta opn cls c = 0 := by
      intro he
      have hp : done ++ [c] = payload := by
        rw [he] at hassoc
        simpa using hassoc
      have h0 : netDepth opn cls (done ++ [c]) = 0 := by
        rw [hp]; exact hnet
      rw [hnext] at h0
      exact h0
    rw [List.cons_append]
    by_cases hco : c = opn
    · have hdelta : delta opn cls c = 1 := by simp [delta, hco]
      have htodo' : todo' ≠ [] := by
        intro he
        have := hfull he
        rw [hdelta] at this
        omega
      unfold scanBalanced
      rw [if_pos (by simp [hco])]
      rw [hrev]
      refine ih (done ++ [c]) (depth + 1) hassoc (by simp) htodo' ?_
      rw [hnext, hdelta]
      omega
    · by_cases hcc : c = cls
      · have hdelta : delta opn cls c = -1 := by
          simp [delta, hcc, Ne.symm hne]
        by_cases htodo' : todo' = []
        · have hz := hfull htodo'
          rw [hdelta] at hz
          have hd1 : depth = 1 := by omega
          have hp : done ++ [c] = payload := by
            rw [htodo'] at hassoc
            simpa using hassoc
          unfold scanBalanced
          rw [if_neg (by simp [hco]), if_pos (by simp [hcc]),
            if_pos (by simp [hd1])]
          rw [hrev, List.reverse_reverse, hp]
        · have hposNext : (0 : ℤ) < netDepth opn cls (done ++ [c]) :=
            hpos (done ++ [c]) ⟨todo', hassoc⟩ (by simp)
              (fun he => htodo' (by
                have := congrArg List.length hassoc
                rw [he] at this
                simpa using this))
          have hd2 : 2 ≤ depth := by
            rw [hnext, hdelta] at hposNext
            have : (1 : ℤ) < (depth : ℤ) := by omega
            exact_mod_cast this
          unfold scanBalanced
          rw [if_neg (by simp [hco]), if_pos (by simp [hcc]),
            if_neg (by simp; omega)]
          rw [hrev]
          refine ih (done ++ [c]) (depth - 1) hassoc (by simp) htodo' ?_
          rw [hnext, hdelta, Nat.cast_sub (by omega)]
          omega
      · have hdelta : delta opn cls c = 0 := by simp [delta, hco, hcc]
        have htodo' : todo' ≠ [] := by
          intro he
          have := hfull he
          rw [hdelta] at this
          omega
        unfold scanBalanced
        rw [if_neg (by simp [hco]), if_neg (by simp [hcc])]
        rw [hrev]
        refine ih (done ++ [c]) depth hassoc (by simp) htodo' ?_
        rw [hnext, hdelta]
        omega

theorem extractBalanced_spec (opn cls : Char) (hne : opn ≠ cls)
    (A payload B : String)
    (hA : ∀ c ∈ A.toList, (c == opn) = false)
    (hhead : payload.toList.head? = some opn)
    (hnet : netDepth opn cls payload.toList = 0)
    (hpos : ∀ p, p <+: payload.toList → p ≠ [] → p ≠ payload.toList →
      0 < netDepth opn cls p) :
    extractBalanced opn cls (A ++ payload ++ B) = some payload := by
  obtain ⟨tl, hp⟩ : ∃ tl, payload.toList = opn :: tl := by
    cases hpl : payload.toList with
    | nil => rw [hpl] at hhead; simp at hhead
    | cons x xs =>
      rw [hpl] at hhead
      have hx : x = opn := by simpa using hhead
      exact ⟨xs, by rw [hx]⟩
  have htl : tl ≠ [] := by
    intro he
    rw [he] at hp
    rw [hp, netDepth_singleton] at hnet
    simp [delta] at hnet
  unfold extractBalanced
  have hlist : (A ++ payload ++ B).toList =
      A.toList ++ (payload.toList ++ B.toList) := by
    simp [String.toList, String.data_append, List.append_assoc]
  rw [hlist,
    dropWhile_append_of_all _ _ _ (fun a ha => by simpa using hA a ha),
    hp, List.cons_append, List.dropWhile_cons_of_neg (by simp)]
  dsimp only
  unfold scanBalanced
  rw [if_pos (by simp)]
  have happly := scanBalanced_spec opn cls hne payload.toList B.toList hnet hpos
    tl [opn] 1 hp.symm (by simp) htl
    (by rw [netDepth_singleton]; simp [delta])
  have hrev1 : ([opn] : List Char).reverse = [opn] := by simp
  rw [hrev1] at happly
  rw [show (0 + 1 : ℕ) = 1 from rfl, happly]
  rfl

theorem prefixPos_of_takePos (opn cls : Char) (L : List Char)
    (h : ∀ k ∈ List.range L.length, k ≠ 0 → 0 < netDepth opn cls (L.take k)) :
    ∀ p, p <+: L → p ≠ [] → p ≠ L → 0 < netDepth opn cls p := by
  intro p hpre hne hneL
  have hlen : p.length < L.length := by
    rcases lt_or_eq_of_le hpre.length_le with hlt | heq
    · exact hlt
    · exact absurd (List.IsPrefix.eq_of_length hpre heq) hneL
  have hp : p = L.take p.length := List.prefix_iff_eq_take.mp hpre
  rw [hp]
  exact h p.length (List.mem_range.mpr hlen) (by simpa using hne)

/-- C5 as written is false on the code: when the prose before the fenced
payload contains a stray opening brace, the balanced scan starts at that
brace and never returns to depth zero, so the extraction returns `None`
instead of the payload; with the prose only after the payload (the spec's
scenario) the extraction succeeds. -/
theorem c5_counterexample :
    extractJsonObjectString "ok \x7b\n```json\n\x7b\"a\": 1\x7d\n```" = none ∧
    extractJsonObjectString "```json\n\x7b\"a\": 1\x7d\n```\nThanks!"
      = some "\x7b\"a\": 1\x7d" := by decide

/-- C5 (amended): the extraction locates the first opening delimiter and
scans to the depth-zero close.  For every response of the form
`pre ++ payload ++ post` where `pre` contains no opening delimiter and the
payload's delimiters are prefix-balanced (net depth zero overall, positive
on every proper nonempty prefix), the scan returns exactly the payload,
ignoring everything around it; in particular the full pipeline
(strip, fence removal, scan) extracts a fenced payload with leading or
trailing prose, both in the object and the array variant. -/
theorem c5_balanced_extraction :
    (∀ (A payload B : String),
      (∀ c ∈ A.toList, (c == '\x7b') = false) →
      payload.toList.head? = some '\x7b' →
      netDepth '\x7b' '\x7d' payload.toList = 0 →
      (∀ k ∈ List.range payload.toList.length, k ≠ 0 →
        0 < netDepth '\x7b' '\x7d' (payload.toList.take k)) →
      extractBalanced '\x7b' '\x7d' (A ++ payload ++ B) = some payload) ∧
    (∀ (A payload B : String),
      (∀ c ∈ A.toList, (c == '[') = false) →
      payload.toList.head? = some '[' →
      netDepth '[' ']' payload.toList = 0 →
      (∀ k ∈ List.range payload.toList.length, k ≠ 0 →
        0 < netDepth '[' ']' (payload.toList.take k)) →
      extractBalanced '[' ']' (A ++ payload ++ B) = some payload) ∧
    extractJsonObjectString
        "```json\n\x7b\"method\": \"get_transaction\", \"params\": \x7b\"tx_hash\": \"0xabc\"\x7d\x7d\n```\nHope this helps!"
      = some "\x7b\"method\": \"get_transaction\", \"params\": \x7b\"tx_hash\": \"0xabc\"\x7d\x7d" ∧
    extractJsonArrayString "Sure!\n```json\n[\x7b\"function\": \"get_abi\"\x7d]\n```"
      = some "[\x7b\"function\": \"get_abi\"\x7d]" :=
  ⟨fun A p B h1 h2 h3 h4 => extractBalanced_spec _ _ (by decide) A p B h1 h2 h3
      (prefixPos_of_takePos _ _ _ h4),
   fun A p B h1 h2 h3 h4 => extractBalanced_spec _ _ (by decide) A p B h1 h2 h3
      (prefixPos_of_takePos _ _ _ h4),
   by decide, by decide⟩

/-- Witness for C5's amended theorem at a concrete prose-wrapped payload. -/
theorem c5_balanced_extraction_witness :
    extractBalanced '\x7b' '\x7d'
        ("no braces before: " ++ "\x7b\"a\": \x7b\x7d\x7d" ++ " \x7d trailing \x7b")
      = some "\x7b\"a\": \x7b\x7d\x7d" :=
  c5_balanced_extraction.1 "no braces before: " "\x7b\"a\": \x7b\x7d\x7d"
    " \x7d trailing \x7b" (by decide) (by decide) (by decide) (by decide)

/-! ### Float-to-string model and amount-coercion round trip (C9) -/

/-- The decimal digit character for `d < 10`. -/
def digitChar (d : ℕ) : Char := Char.ofNat (48 + d)

/-- Little-endian decimal digits with explicit fuel (the fuel only forces
structural recursion; `n` itself always suffices). -/
def natDigitsFuel : ℕ → ℕ → List ℕ
  | 0, _ => []
  | _ + 1, 0 => []
  | f + 1, n => n % 10 :: natDigitsFuel f (n / 10)

/-- Big-endian decimal digit characters of a natural number, `"0"` for 0 —
the digit string CPython prints for an integer. -/
def natDigitChars (n : ℕ) : List Char :=
  if n = 0 then ['0'] else ((natDigitsFuel n n).reverse.map digitChar)

theorem natDigitsFuel_eq : ∀ (f n : ℕ), n ≤ f →
    natDigitsFuel f n = Nat.digits 10 n := by
  intro f
  induction f with
  | zero =>
    intro n h
    interval_cases n
    simp [natDigitsFuel]
  | succ f ih =>
    intro n h
    cases n with
    | zero => simp [natDigitsFuel]
    | succ n =>
      rw [show natDigitsFuel (f + 1) (n + 1)
          = (n + 1) % 10 :: natDigitsFuel f ((n + 1) / 10) from rfl]
      rw [Nat.digits_def' (by norm_num : 1 < 10) (Nat.succ_pos n)]
      congr 1
      exact ih ((n + 1) / 10) (by
        have := Nat.div_lt_self (Nat.succ_pos n) (by norm_num : 1 < 10)
        omega)

theorem toNat_digitChar {d : ℕ} (h : d < 10) : (digitChar d).toNat - 48 = d := by
  interval_cases d <;> decide

theorem digitChar_isDigit {d : ℕ} (h : d < 10) : (digitChar d).isDigit = true := by
  interval_cases d <;> decide

theorem natOfDigitChars_acc (l : List Char) : ∀ acc : ℕ,
    List.foldl (fun a c => a * 10 + (c.toNat - 48)) acc l =
      acc * 10 ^ l.length + natOfDigitChars l := by
  induction l with
  | nil => intro acc; simp [natOfDigitChars]
  | cons c t ih =>
    intro acc
    have hv : natOfDigitChars (c :: t) = (c.toNat - 48) * 10 ^ t.length
        + natOfDigitChars t := by
      show List.foldl _ ((0 : ℕ) * 10 + (c.toNat - 48)) t = _
      rw [ih]
      ring_nf
    rw [List.foldl_cons, ih, hv, List.length_cons]
    ring

theorem natOfDigitChars_append (a b : List Char) :
    natOfDigitChars (a ++ b) =
      natOfDigitChars a * 10 ^ b.length + natOfDigitChars b := by
  show List.foldl _ 0 (a ++ b) = _
  rw [List.foldl_append, natOfDigitChars_acc]
  rfl

theorem natOfDigitChars_rev_digits : ∀ (ds : List ℕ), (∀ d ∈ ds, d < 10) →
    natOfDigitChars (ds.reverse.map digitChar) = Nat.ofDigits 10 ds := by
  intro ds
  induction ds with
  | nil => intro _; simp [natOfDigitChars]
  | cons d t ih =>
    intro h
    have hd : d < 10 := h d (by simp)
    have hsing : natOfDigitChars [digitChar d] = d := by
      show (0 : ℕ) * 10 + ((digitChar d).toNat - 48) = d
      rw [toNat_digitChar hd]
      omega
    rw [List.reverse_cons, List.map_append, natOfDigitChars_append]
    simp only [List.map_cons, List.map_nil, List.length_cons, List.length_nil]
    rw [hsing, ih (fun x hx => h x (by simp [hx])), Nat.ofDigits_cons]
    push_cast
    ring

theorem natOfDigitChars_natDigitChars (n : ℕ) :
    natOfDigitChars (natDigitChars n) = n := by
  by_cases hn : n = 0
  · subst hn; decide
  · unfold natDigitChars
    rw [if_neg hn, natDigitsFuel_eq n n le_rfl,
      natOfDigitChars_rev_digits _
        (fun d hd => Nat.digits_lt_base (by norm_num) hd),
      Nat.ofDigits_digits]

theorem natDigitChars_ne_nil (n : ℕ) : natDigitChars n ≠ [] := by
  unfold natDigitChars
  by_cases hn : n = 0
  · simp [hn]
  · rw [if_neg hn, natDigitsFuel_eq n n le_rfl]
    intro he
    simp [Nat.digits_eq_nil_iff_eq_zero, hn] at he

theorem natDigitChars_all_digit (n : ℕ) :
    ∀ c ∈ natDigitChars n, c.isDigit = true := by
  unfold natDigitChars
  by_cases hn : n = 0
  · simp [hn]
  · rw [if_neg hn, natDigitsFuel_eq n n le_rfl]
    intro c hc
    obtain ⟨d, hd, rfl⟩ := List.mem_map.mp hc
    exact digitChar_isDigit (Nat.digits_lt_base (by norm_num) (List.mem_reverse.mp hd))

theorem natDigitChars_length_le {n k : ℕ} (h : n < 10 ^ k) (hk : 0 < k) :
    (natDigitChars n).length ≤ k := by
  unfold natDigitChars
  by_cases hn : n = 0
  · simp [hn]; omega
  · rw [if_neg hn, natDigitsFuel_eq n n le_rfl]
    have hlog : Nat.log 10 n < k := Nat.log_lt_of_lt_pow hn h
    have hlen := Nat.digits_len 10 n (by norm_num) hn
    simp only [List.length_map, List.length_reverse]
    omega

theorem dropWhile_eq_self_of_all {α : Type} (p : α → Bool) (l : List α)
    (h : ∀ c ∈ l, p c = false) : l.dropWhile p = l := by
  cases l with
  | nil => rfl
  | cons c t => exact List.dropWhile_cons_of_neg (by simp [h c (by simp)])

theorem trimChars_eq_self (l : List Char)
    (h : ∀ c ∈ l, c.isWhitespace = false) : trimChars l = l := by
  unfold trimChars
  rw [dropWhile_eq_self_of_all _ _ h,
    dropWhile_eq_self_of_all _ _ (fun c hc => h c (List.mem_reverse.mp hc)),
    List.reverse_reverse]

theorem removeSubFuel_eq_self {pat : List Char} {p0 : Char}
    (hp : pat.head? = some p0) :
    ∀ (f : ℕ) (l : List Char), (∀ c ∈ l, (c == p0) = false) →
      removeSubFuel pat f l = l := by
  obtain ⟨pt, rfl⟩ : ∃ pt, pat = p0 :: pt := by
    cases pat with
    | nil => simp at hp
    | cons x xs =>
      refine ⟨xs, ?_⟩
      have hx : x = p0 := by simpa using hp
      rw [hx]
  intro f
  induction f with
  | zero => intro l _; rfl
  | succ f ih =>
    intro l hl
    cases l with
    | nil => rfl
    | cons c t =>
      have hc : (c == p0) = false := hl c (by simp)
      have hpc : (p0 == c) = false := by
        rw [beq_eq_false_iff_ne] at hc ⊢
        exact fun he => hc he.symm
      have hpre : ((p0 :: pt).isPrefixOf (c :: t)) = false := by
        simp [List.isPrefixOf, hpc]
      rw [show removeSubFuel (p0 :: pt) (f + 1) (c :: t)
          = if (p0 :: pt).isPrefixOf (c :: t) && !(p0 :: pt).isEmpty then
              removeSubFuel (p0 :: pt) f ((c :: t).drop (p0 :: pt).length)
            else c :: removeSubFuel (p0 :: pt) f t from rfl]
      rw [hpre]
      simp only [Bool.false_and, if_neg (by simp : ¬(false = true))]
      rw [ih t (fun y hy => hl y (by simp [hy]))]

theorem takeWhile_middle (p : Char → Bool) (I r : List Char) (x : Char)
    (hI : ∀ c ∈ I, p c = true) (hx : p x = false) :
    (I ++ x :: r).takeWhile p = I ∧ (I ++ x :: r).dropWhile p = x :: r := by
  induction I with
  | nil =>
    constructor
    · exact List.takeWhile_cons_of_neg (by simp [hx])
    · exact List.dropWhile_cons_of_neg (by simp [hx])
  | cons c t ih =>
    obtain ⟨ih1, ih2⟩ := ih (fun y hy => hI y (by simp [hy]))
    constructor
    · rw [List.cons_append, List.takeWhile_cons_of_pos (hI c (by simp)), ih1]
    · rw [List.cons_append, List.dropWhile_cons_of_pos (hI c (by simp)), ih2]

/-- A digit character is not a period. -/
theorem isDigit_ne_dot {c : Char} (h : c.isDigit = true) : (c != '.') = true := by
  rw [bne_iff_ne]
  intro he
  rw [he] at h
  exact absurd h (by decide)

theorem floatOfDigitsDot_split (I F : List Char)
    (hI : ∀ c ∈ I, c.isDigit = true) (hF : ∀ c ∈ F, c.isDigit = true)
    (hne : I ≠ [] ∨ F ≠ []) :
    floatOfDigitsDot (String.mk (I ++ '.' :: F)) =
      some (mkRat (natOfDigitChars (I ++ F)) (10 ^ F.length)) := by
  have hIdot : ∀ c ∈ I, (c != '.') = true := fun c hc => isDigit_ne_dot (hI c hc)
  have hFdot : ∀ c ∈ F, (c != '.') = true := fun c hc => isDigit_ne_dot (hF c hc)
  obtain ⟨htake, hdrop⟩ := takeWhile_middle (fun c => c != '.') I F '.'
    hIdot (by decide)
  unfold floatOfDigitsDot
  have hlist : (String.mk (I ++ '.' :: F)).toList = I ++ '.' :: F := rfl
  rw [hlist]
  rw [if_pos (by
    rw [List.all_eq_true]
    intro c hc
    rcases List.mem_append.mp hc with hcI | hcM
    · simp [hI c hcI]
    · rcases List.mem_cons.mp hcM with rfl | hcF
      · decide
      · simp [hF c hcF])]
  rw [htake, hdrop]
  dsimp only
  rw [if_neg (by
    intro hany
    rw [List.any_eq_true] at hany
    obtain ⟨c, hc, hceq⟩ := hany
    have := hFdot c hc
    rw [bne_iff_ne] at this
    exact this (by simpa using hceq))]
  rw [if_neg (by
    intro hboth
    rcases hne with hi | hf
    · exact hi (by simpa using (Bool.and_elim_left hboth))
    · exact hf (by simpa using (Bool.and_elim_right hboth)))]

/-- Strip trailing decimal zeros: returns `(m, z)` with `n = m * 10 ^ z`
and `m` not divisible by 10 (fuel-based; `n` itself is enough fuel). -/
def stripZerosFuel : ℕ → ℕ → ℕ × ℕ
  | 0, n => (n, 0)
  | f + 1, n =>
    if n % 10 == 0 && n != 0 then
      let p := stripZerosFuel f (n / 10)
      (p.1, p.2 + 1)
    else (n, 0)

/-- CPython `repr` of an integer-valued double in scientific notation
(used for values ≥ 1e16): the significant digits of `n` with the decimal
point after the first, `e+`, and the exponent.  Exact whenever the double
is exact and its decimal digits are its shortest representation (true for
every value appearing in the theorems below, e.g. 10^20 ↦ `1e+20`). -/
def sciIntRepr (n : ℕ) : String :=
  let m := (stripZerosFuel n n).1
  let e := (natDigitChars n).length - 1
  match natDigitChars m with
  | [] => ""
  | d :: rest =>
    String.mk ((d :: (if rest.isEmpty then [] else '.' :: rest)) ++
      ('e' :: '+' :: natDigitChars e))

/-- The least `k ≤ d` with `d ∣ 10 ^ k` (it exists whenever `d` has only
the prime factors 2 and 5, which holds for every denominator produced by
amount coercion). -/
def decExp (d : ℕ) : ℕ :=
  ((List.range (d + 1)).find? (fun k => 10 ^ k % d == 0)).getD 0

/-- Left-pad a digit string with zeros to length `k`. -/
def padZeros (l : List Char) (k : ℕ) : List Char :=
  List.replicate (k - l.length) '0' ++ l

/-- CPython `repr` of a nonnegative double in plain decimal notation
(used for 0 and the range [1e-4, 1e16)): integer part, point, fractional
digits without trailing zeros — `.0` for integral values.  The rational
`q` stands for the double's shortest decimal, so the rendering is exactly
the Python string (e.g. 1/2 ↦ `0.5`, 2 ↦ `2.0`). -/
def plainDecimalRepr (q : ℚ) : String :=
  let k := decExp q.den
  let m := (q.num * ((10 ^ k : ℤ) / (q.den : ℤ))).toNat
  if k = 0 then String.mk (natDigitChars m ++ ('.' :: ['0']))
  else String.mk (natDigitChars (m / 10 ^ k) ++
    ('.' :: padZeros (natDigitChars (m % 10 ^ k)) k))

/-- Model of Python `str(float)` on the nonnegative terminating-decimal
values produced by amount coercion: scientific notation for integral
values ≥ 1e16, plain decimal otherwise.  (CPython also uses scientific
notation below 1e-4; the round-trip theorem's hypotheses restrict it to
the regimes this model covers, and all concrete evaluations happen at
exactly-represented doubles where model and CPython agree.) -/
def pyFloatStr (q : ℚ) : String :=
  if q.den = 1 ∧ (10 ^ 16 : ℤ) ≤ q.num then sciIntRepr q.num.toNat
  else plainDecimalRepr q

example : pyFloatStr (mkRat 1 2) = "0.5" := by decide
example : pyFloatStr (mkRat 2 1) = "2.0" := by decide
example : pyFloatStr (mkRat 1234 100) = "12.34" := by decide

theorem decExp_dvd {d : ℕ} (hd : 0 < d) (hex : ∃ j, d ∣ 10 ^ j) :
    d ∣ 10 ^ decExp d := by
  unfold decExp
  cases hf : (List.range (d + 1)).find? (fun k => 10 ^ k % d == 0) with
  | some k =>
    have hk := List.find?_some hf
    simp only [beq_iff_eq] at hk
    simpa using Nat.dvd_of_mod_eq_zero hk
  | none =>
    exfalso
    obtain ⟨j, hj⟩ := hex
    have hdd : d ∣ 10 ^ d := by
      rcases le_or_lt j d with hle | _
      · exact hj.trans (pow_dvd_pow 10 hle)
      · have h10d : (10 : ℕ) ^ d ≠ 0 := by positivity
        have h10j : (10 : ℕ) ^ j ≠ 0 := by positivity
        rw [← Nat.factorization_le_iff_dvd hd.ne' h10d, Nat.factorization_pow,
          Finsupp.le_def]
        intro p
        have hfj : d.factorization ≤ j • Nat.factorization 10 := by
          rw [← Nat.factorization_pow]
          exact (Nat.factorization_le_iff_dvd hd.ne' h10j).mpr hj
        have hfjp := Finsupp.le_def.mp hfj p
        simp only [Finsupp.smul_apply, smul_eq_mul] at hfjp ⊢
        by_cases hp0 : Nat.factorization 10 p = 0
        · rw [hp0] at hfjp ⊢
          omega
        · have hlt : d.factorization p < d := Nat.factorization_lt p hd.ne'
          have hp1 : 1 ≤ Nat.factorization 10 p := Nat.pos_of_ne_zero hp0
          calc d.factorization p ≤ d := le_of_lt hlt
            _ ≤ d * Nat.factorization 10 p := Nat.le_mul_of_pos_right d hp1
    have hmem : d ∈ List.range (d + 1) := by simp
    have hnone := List.find?_eq_none.mp hf d hmem
    simp only [beq_iff_eq] at hnone
    exact hnone (Nat.mod_eq_zero_of_dvd hdd)

/-- A digit character is not whitespace. -/
theorem isDigit_not_ws {c : Char} (h : c.isDigit = true) :
    c.isWhitespace = false := by
  by_contra hw
  have hw2 : c.isWhitespace = true := by
    cases hws : c.isWhitespace
    · exact absurd hws hw
    · rfl
  have hcases : ((c = ' ' ∨ c = '\t') ∨ c = '\x0d') ∨ c = '\n' := by
    simpa [Char.isWhitespace] using hw2
  rcases hcases with ((rfl | rfl) | rfl) | rfl <;> exact absurd h (by decide)

/-- A digit character never equals a non-digit character. -/
theorem isDigit_beq_false {c : Char} (h : c.isDigit = true) (c0 : Char)
    (h0 : c0.isDigit = false) : (c == c0) = false := by
  rw [beq_eq_false_iff_ne]
  intro he
  rw [he] at h
  rw [h0] at h
  exact Bool.noConfusion h

/-- On a clean digits-and-dot string every preprocessing stage of
`coerceAmount` is the identity, so the coercion is exactly the float
parse. -/
theorem coerceAmount_clean (I F : List Char)
    (hI : ∀ c ∈ I, c.isDigit = true) (hF : ∀ c ∈ F, c.isDigit = true)
    (hne : I ≠ [] ∨ F ≠ []) :
    coerceAmount (String.mk (I ++ '.' :: F)) =
      some (mkRat (natOfDigitChars (I ++ F)) (10 ^ F.length)) := by
  have hlw : ∀ c ∈ I ++ '.' :: F, c.isWhitespace = false := by
    intro c hc
    rcases List.mem_append.mp hc with h1 | h2
    · exact isDigit_not_ws (hI c h1)
    · rcases List.mem_cons.mp h2 with rfl | h3
      · decide
      · exact isDigit_not_ws (hF c h3)
  have hneC : ∀ (c0 : Char), c0.isDigit = false → c0 ≠ '.' →
      ∀ c ∈ I ++ '.' :: F, (c == c0) = false := by
    intro c0 h0 hdot c hc
    rcases List.mem_append.mp hc with h1 | h2
    · exact isDigit_beq_false (hI c h1) c0 h0
    · rcases List.mem_cons.mp h2 with rfl | h3
      · rw [beq_eq_false_iff_ne]
        exact fun he => hdot he.symm
      · exact isDigit_beq_false (hF c h3) c0 h0
  have htl : (String.mk (I ++ '.' :: F)).toList = I ++ '.' :: F := rfl
  have hstrip : pyStrip (String.mk (I ++ '.' :: F)) = String.mk (I ++ '.' :: F) := by
    unfold pyStrip
    rw [htl, trimChars_eq_self _ hlw]
  have hUSD : removeSub "USD".toList (I ++ '.' :: F) = I ++ '.' :: F :=
    removeSubFuel_eq_self (by decide) _ _ (hneC 'U' (by decide) (by decide))
  have hETH : removeSub "ETH".toList (I ++ '.' :: F) = I ++ '.' :: F :=
    removeSubFuel_eq_self (by decide) _ _ (hneC 'E' (by decide) (by decide))
  have hDOL : removeSub "$".toList (I ++ '.' :: F) = I ++ '.' :: F :=
    removeSubFuel_eq_self (by decide) _ _ (hneC '$' (by decide) (by decide))
  have hfil : (I ++ '.' :: F).filter (fun c => c.isDigit || c == '.') =
      I ++ '.' :: F := by
    rw [List.filter_eq_self]
    intro c hc
    rcases List.mem_append.mp hc with h1 | h2
    · simp [hI c h1]
    · rcases List.mem_cons.mp h2 with rfl | h3
      · decide
      · simp [hF c h3]
  simp only [coerceAmount]
  rw [hstrip, htl, hUSD, hETH, hDOL, hstrip, htl, hfil]
  rw [if_neg (by
    intro he
    rw [List.isEmpty_iff] at he
    rcases hne with hi | hf
    · exact hi (List.append_eq_nil.mp he).1
    · exact absurd (List.append_eq_nil.mp he).2 (by simp))]
  exact floatOfDigitsDot_split I F hI hF hne

/-- The denominator of `mkRat n d` divides `d`. -/
theorem mkRat_den_dvd (n : ℤ) (d : ℕ) : ((mkRat n d).den : ℕ) ∣ d := by
  have h := Rat.den_dvd n (d : ℤ)
  rw [← Rat.mkRat_eq_divInt] at h
  exact_mod_cast h

/-- `mkRat` of a natural numerator is nonnegative. -/
theorem mkRat_natCast_nonneg (n d : ℕ) : 0 ≤ mkRat (n : ℤ) d := by
  rw [Rat.mkRat_eq_div]
  apply div_nonneg <;> positivity

/-- Every value produced by the float parse is nonnegative with a
denominator dividing a power of ten. -/
theorem floatOfDigitsDot_props {s : String} {q : ℚ}
    (h : floatOfDigitsDot s = some q) :
    0 ≤ q ∧ ∃ j, (q.den : ℕ) ∣ 10 ^ j := by
  simp only [floatOfDigitsDot] at h
  by_cases hall : (s.toList.all (fun c => c.isDigit || c == '.')) = true
  · rw [if_pos hall] at h
    cases hrest : s.toList.dropWhile (fun c => c != '.') with
    | nil =>
      rw [hrest] at h
      dsimp only at h
      by_cases hemp : s.toList.isEmpty = true
      · rw [if_pos hemp] at h
        exact absurd h (by simp)
      · rw [if_neg hemp] at h
        have hq : q = mkRat (natOfDigitChars s.toList) 1 :=
          (Option.some.injEq _ _ ▸ h).symm
        subst hq
        refine ⟨mkRat_natCast_nonneg _ _, 0, ?_⟩
        rw [pow_zero]
        exact mkRat_den_dvd (natOfDigitChars s.toList) 1
    | cons c frac =>
      rw [hrest] at h
      dsimp only at h
      by_cases hany : (frac.any (fun c => c == '.')) = true
      · rw [if_pos hany] at h
        exact absurd h (by simp)
      · rw [if_neg hany] at h
        by_cases hboth : ((s.toList.takeWhile (fun c => c != '.')).isEmpty
            && frac.isEmpty) = true
        · rw [if_pos hboth] at h
          exact absurd h (by simp)
        · rw [if_neg hboth] at h
          have hq : q = mkRat (natOfDigitChars
              (s.toList.takeWhile (fun c => c != '.') ++ frac))
              (10 ^ frac.length) := (Option.some.injEq _ _ ▸ h).symm
          subst hq
          exact ⟨mkRat_natCast_nonneg _ _, frac.length, mkRat_den_dvd _ _⟩
  · rw [if_neg hall] at h
    exact absurd h (by simp)

/-- Every value produced by amount coercion is nonnegative with a
denominator dividing a power of ten. -/
theorem coerceAmount_props {s : String} {q : ℚ}
    (h : coerceAmount s = some q) :
    0 ≤ q ∧ ∃ j, (q.den : ℕ) ∣ 10 ^ j := by
  simp only [coerceAmount] at h
  by_cases hemp : (((pyStrip (String.mk (removeSub "$".toList
      (removeSub "ETH".toList (removeSub "USD".toList
        (pyStrip s).toList))))).toList.filter
      (fun c => c.isDigit || c == '.')).isEmpty) = true
  · rw [if_pos hemp] at h
    exact absurd h (by simp)
  · rw [if_neg hemp] at h
    exact floatOfDigitsDot_props h

/-- The integer digit mass used by `plainDecimalRepr` is exactly `q * 10^k`
once the denominator divides `10^k`. -/
theorem toNat_m_eq (q : ℚ) (hq : 0 ≤ q) (k : ℕ)
    (hk : (q.den : ℕ) ∣ 10 ^ k) :
    (((q.num * ((10 ^ k : ℤ) / (q.den : ℤ))).toNat : ℚ)) = q * 10 ^ k := by
  have hdenQ : ((q.den : ℕ) : ℚ) ≠ 0 := by
    exact_mod_cast q.den_nz
  have hkZ : (q.den : ℤ) ∣ (10 ^ k : ℤ) := by exact_mod_cast hk
  have ht : (q.den : ℤ) * ((10 ^ k : ℤ) / (q.den : ℤ)) = 10 ^ k :=
    Int.mul_ediv_cancel' hkZ
  have htn : 0 ≤ (10 ^ k : ℤ) / (q.den : ℤ) :=
    Int.ediv_nonneg (by positivity) (by positivity)
  have hnum : 0 ≤ q.num := Rat.num_nonneg.mpr hq
  have hmn : 0 ≤ q.num * ((10 ^ k : ℤ) / (q.den : ℤ)) := mul_nonneg hnum htn
  have hcast : (((q.num * ((10 ^ k : ℤ) / (q.den : ℤ))).toNat : ℤ) : ℚ) =
      ((q.num : ℚ)) * ((((10 ^ k : ℤ) / (q.den : ℤ)) : ℤ) : ℚ) := by
    rw [Int.toNat_of_nonneg hmn]
    push_cast
    ring
  have htQ : (((q.den : ℕ) : ℚ)) * ((((10 ^ k : ℤ) / (q.den : ℤ)) : ℤ) : ℚ) =
      (10 : ℚ) ^ k := by
    exact_mod_cast congrArg (Int.cast : ℤ → ℚ) ht
  have hTd : ((((10 ^ k : ℤ) / (q.den : ℤ)) : ℤ) : ℚ) =
      (10 : ℚ) ^ k / ((q.den : ℕ) : ℚ) := by
    rw [eq_div_iff hdenQ]
    rw [mul_comm] at htQ
    exact htQ
  have : (((q.num * ((10 ^ k : ℤ) / (q.den : ℤ))).toNat : ℚ)) =
      (q.num : ℚ) * ((10 : ℚ) ^ k / ((q.den : ℕ) : ℚ)) := by
    rw [← hTd]
    exact_mod_cast hcast
  rw [this]
  conv_rhs => rw [← Rat.num_div_den q]
  ring

/-- Leading zeros do not change the numeric value of a digit string. -/
theorem natOfDigitChars_replicate_zero (z : ℕ) (D : List Char) :
    natOfDigitChars (List.replicate z '0' ++ D) = natOfDigitChars D := by
  rw [natOfDigitChars_append]
  have hz : natOfDigitChars (List.replicate z '0') = 0 := by
    induction z with
    | zero => rfl
    | succ z ih =>
      rw [List.replicate_succ]
      show List.foldl _ ((0 : ℕ) * 10 + ('0'.toNat - 48)) _ = 0
      have h0 : (0 : ℕ) * 10 + ('0'.toNat - 48) = 0 := by decide
      rw [h0]
      exact ih
  rw [hz]
  simp

/-- Parsing back the plain-decimal rendering recovers the value: the
round trip through `plainDecimalRepr`. -/
theorem coerceAmount_plainDecimalRepr (q : ℚ) (hq : 0 ≤ q)
    (hden : ∃ j, (q.den : ℕ) ∣ 10 ^ j) :
    coerceAmount (plainDecimalRepr q) = some q := by
  simp only [plainDecimalRepr]
  have hk : (q.den : ℕ) ∣ 10 ^ decExp q.den := decExp_dvd q.pos hden
  have hmQ := toNat_m_eq q hq (decExp q.den) hk
  by_cases hk0 : decExp q.den = 0
  · rw [if_pos hk0]
    rw [coerceAmount_clean _ ['0'] (natDigitChars_all_digit _)
      (by intro c hc; rcases List.mem_singleton.mp hc with rfl; decide)
      (Or.inr (by simp))]
    congr 1
    have hv : natOfDigitChars (natDigitChars
        ((q.num * ((10 ^ decExp q.den : ℤ) / (q.den : ℤ))).toNat) ++ ['0']) =
        10 * (q.num * ((10 ^ decExp q.den : ℤ) / (q.den : ℤ))).toNat := by
      rw [natOfDigitChars_append, natOfDigitChars_natDigitChars]
      have h0 : natOfDigitChars ['0'] = 0 := by decide
      rw [h0]
      simp [mul_comm]
    rw [hv]
    have hmQ0 : (((q.num * ((10 ^ decExp q.den : ℤ) / (q.den : ℤ))).toNat : ℚ)) =
        q := by
      rw [hmQ, hk0, pow_zero, mul_one]
    rw [Rat.mkRat_eq_div]
    push_cast
    rw [hmQ0]
    norm_num
  · rw [if_neg hk0]
    have hkpos : 0 < decExp q.den := Nat.pos_of_ne_zero hk0
    have hmodlt : (q.num * ((10 ^ decExp q.den : ℤ) / (q.den : ℤ))).toNat %
        10 ^ decExp q.den < 10 ^ decExp q.den :=
      Nat.mod_lt _ (by positivity)
    have hlen : (natDigitChars ((q.num * ((10 ^ decExp q.den : ℤ) /
        (q.den : ℤ))).toNat % 10 ^ decExp q.den)).length ≤ decExp q.den :=
      natDigitChars_length_le hmodlt hkpos
    have hFlen : (padZeros (natDigitChars ((q.num * ((10 ^ decExp q.den : ℤ) /
        (q.den : ℤ))).toNat % 10 ^ decExp q.den)) (decExp q.den)).length =
        decExp q.den := by
      unfold padZeros
      rw [List.length_append, List.length_replicate]
      omega
    rw [coerceAmount_clean _ _ (natDigitChars_all_digit _)
      (by
        intro c hc
        rcases List.mem_append.mp hc with h1 | h2
        · rcases List.eq_of_mem_replicate h1 with rfl
          decide
        · exact natDigitChars_all_digit _ c h2)
      (Or.inl (natDigitChars_ne_nil _))]
    rw [hFlen]
    have hval : natOfDigitChars (natDigitChars ((q.num * ((10 ^ decExp q.den : ℤ) /
        (q.den : ℤ))).toNat / 10 ^ decExp q.den) ++
        padZeros (natDigitChars ((q.num * ((10 ^ decExp q.den : ℤ) /
        (q.den : ℤ))).toNat % 10 ^ decExp q.den)) (decExp q.den)) =
        (q.num * ((10 ^ decExp q.den : ℤ) / (q.den : ℤ))).toNat := by
      rw [natOfDigitChars_append, hFlen]
      unfold padZeros
      rw [natOfDigitChars_replicate_zero, natOfDigitChars_natDigitChars,
        natOfDigitChars_natDigitChars]
      exact Nat.div_add_mod' _ _
    rw [hval]
    congr 1
    rw [Rat.mkRat_eq_div]
    push_cast
    rw [hmQ]
    have h10 : ((10 : ℚ)) ^ decExp q.den ≠ 0 := by positivity
    field_simp

/-- Round trip through the full `str(float)` model, below the scientific
threshold. -/
theorem coerceAmount_pyFloatStr (q : ℚ) (hq : 0 ≤ q)
    (hden : ∃ j, (q.den : ℕ) ∣ 10 ^ j)
    (hlt : q < mkRat 10000000000000000 1) :
    coerceAmount (pyFloatStr q) = some q := by
  unfold pyFloatStr
  rw [if_neg (by
    rintro ⟨h1, h2⟩
    have hq16 : ((10 : ℚ) ^ 16) ≤ q := by
      have hnum : ((10 ^ 16 : ℤ) : ℚ) ≤ (q.num : ℚ) := by exact_mod_cast h2
      have hq1 : ((q.num : ℤ) : ℚ) = q := (Rat.den_eq_one_iff q).mp h1
      rw [hq1] at hnum
      calc ((10 : ℚ)) ^ 16 = ((10 ^ 16 : ℤ) : ℚ) := by norm_num
        _ ≤ q := hnum
    have hlt' : q < ((10 : ℚ)) ^ 16 := by
      have : (mkRat 10000000000000000 1 : ℚ) = ((10 : ℚ)) ^ 16 := by
        rw [Rat.mkRat_eq_div]
        norm_num
      rw [this] at hlt
      exact hlt
    linarith)]
  exact coerceAmount_plainDecimalRepr q hq hden

/-- C9 as written is false on the code: the value 10^20 (coerced from a
clean digit string) is rendered by `str(float)` in scientific notation as
`1e+20`; re-coercion strips the non-digit characters `e` and `+` and
parses `120`, not 10^20.  Idempotence fails above the 1e16 scientific
threshold. -/
theorem c9_counterexample :
    coerceAmount "100000000000000000000" = some (mkRat (10 ^ 20) 1) ∧
    pyFloatStr (mkRat (10 ^ 20) 1) = "1e+20" ∧
    coerceAmount "1e+20" = some (mkRat 120 1) ∧
    (mkRat 120 1 == mkRat (10 ^ 20) 1) = false := by decide

/-- C9 (amended): amount coercion is idempotent on the plain-decimal
range.  For every coerced value `q` that is zero or lies in
[1e-4, 1e16) — the range where `str(float)` prints plain decimal
notation — re-coercing the string form of `q` yields `q` again. -/
theorem c9_roundtrip (s : String) (q : ℚ)
    (h : coerceAmount s = some q)
    (_hlo : mkRat 1 10000 ≤ q ∨ q = 0)
    (hhi : q < mkRat 10000000000000000 1) :
    coerceAmount (pyFloatStr q) = some q := by
  obtain ⟨hq, hden⟩ := coerceAmount_props h
  exact coerceAmount_pyFloatStr q hq hden hhi

/-- Witness for C9's amended theorem at the coerced amount `0.5 ETH`. -/
theorem c9_roundtrip_witness :
    coerceAmount "0.5 ETH" = some (mkRat 1 2) ∧
    (mkRat 1 10000 ≤ mkRat 1 2 ∨ (mkRat 1 2 : ℚ) = 0) ∧
    mkRat 1 2 < mkRat 10000000000000000 1 ∧
    coerceAmount (pyFloatStr (mkRat 1 2)) = some (mkRat 1 2) :=
  ⟨by decide, Or.inl (by decide), by decide,
    c9_roundtrip "0.5 ETH" (mkRat 1 2) (by decide) (Or.inl (by decide))
      (by decide)⟩

end Csv2Api
